import Mathlib

/-!
# Verification of `topo_order_commits.py`

A shallow embedding of the commit-graph construction, topological
sequencing and rendering code of `src/topo_order_commits.py`, together
with proofs about it.

Modelling conventions:

* Commit identifiers are Lean `String`s, as in the source.  Python
  compares strings by code points, which is the lexicographic order on
  `String.data`; we model Python's `sorted` / `<` on strings through the
  relation `dataLe` below (definitionally the order Mathlib puts on
  `String`, but stated on the character data so that it evaluates inside
  the kernel).
* The Object Reader (spec section 6: `decompress_git_object` plus the
  `parent ` header parsing in `build_commit_graph`) is abstracted as a
  finite association list `store` from commit hash to its ordered parent
  list; a hash absent from `store` models the `FileNotFoundError` branch.
* Python dictionaries are modelled as a finite key set plus a total
  lookup function; Python sets of hashes are `Finset String`.
* The two `while` loops are modelled as structurally recursive functions
  on an explicit iteration budget; the budget passed by the wrappers is
  proved sufficient (`buildLoop_complete`, `phi_le_of_inv` below), so the
  budget-exhaustion branch is unreachable on the wrappers' calls.
* Process exit status is modelled by `Except`: `Except.error` is "write
  a diagnostic to stderr and exit 1", `Except.ok` is "print the lines and
  exit 0".  The file system walk of `get_git_directory` is modelled on
  directory paths given as component lists, innermost component first
  (`[]` is the root `/`), with a predicate `fs` telling which directories
  contain a `.git` subdirectory.
-/

namespace TopoOrderCommits

/-- Python's string order (code-point lexicographic), stated on the
character data of the string so that it is kernel-computable. -/
def dataLe (a b : String) : Prop := a.data ≤ b.data

instance : DecidableRel dataLe :=
  fun a b => inferInstanceAs (Decidable (a.data ≤ b.data))

instance : IsTrans String dataLe :=
  ⟨fun _ _ _ h1 h2 => le_trans h1 h2⟩

instance : IsTotal String dataLe :=
  ⟨fun a b => le_total a.data b.data⟩

instance : IsAntisymm String dataLe :=
  ⟨fun _ _ h1 h2 => String.ext (le_antisymm h1 h2)⟩

/-- `dataLe` is exactly the `≤` of `String`. -/
theorem dataLe_iff_le {a b : String} : dataLe a b ↔ a ≤ b :=
  String.le_iff_toList_le.symm

/-- Python's `sorted` on a list of strings. -/
def sortList (l : List String) : List String := l.insertionSort dataLe

/-- Python's `sorted` on a set of strings (sorting is insensitive to the
enumeration order of the set, so this lifts through the multiset
quotient). -/
def sortMultiset (s : Multiset String) : List String :=
  Quotient.liftOn s (fun l => l.insertionSort dataLe) (fun a b h =>
    @List.eq_of_perm_of_sorted String dataLe _ _ _
      (((List.perm_insertionSort dataLe a).trans h).trans
        (List.perm_insertionSort dataLe b).symm)
      (List.sorted_insertionSort dataLe a)
      (List.sorted_insertionSort dataLe b))

def sortFinset (s : Finset String) : List String := sortMultiset s.val

/-- Mirrors `class CommitNode` (lines 25-29).  `parents` is the ordered
parent list set at line 161 when the commit object is read (it stays at
its initial empty value when the object is absent — the empty Python
`set()` and empty `list` are observationally equal in every use the
program makes of `parents`); `children` is the growing set of line 166. -/
structure CommitNode where
  commit_hash : String
  parents : List String
  children : Finset String
deriving DecidableEq

/-- A fresh `CommitNode(commit_hash)` as built by the constructor. -/
def freshNode (h : String) : CommitNode := ⟨h, [], ∅⟩

/-- The Python dict `graph : dict[str, CommitNode]`: its key set, plus a
total node table (the table is `freshNode` outside the key set, matching
the fact that every key is inserted with value `CommitNode(key)` first). -/
structure CommitGraph where
  keys : Finset String
  nodeOf : String → CommitNode

/-- Python `graph.get(x)`. -/
def graphGet (g : CommitGraph) (x : String) : Option CommitNode :=
  if x ∈ g.keys then some (g.nodeOf x) else none

/-- The object store: ordered association list from commit hash to the
ordered list of `parent ` hashes of its commit object.  Lookup of a hash
that has no entry models the `FileNotFoundError` of lines 150-153. -/
def storeLookup : List (String × List String) → String → Option (List String)
  | [], _ => none
  | (k, ps) :: rest, h => if h = k then some ps else storeLookup rest h

/-- The parents recorded for `h` by the traversal: the stored list, or
`[]` when the object is absent. -/
def storeParents (store : List (String × List String)) (h : String) : List String :=
  (storeLookup store h).getD []

/-- `if commit_hash not in graph: graph[commit_hash] = CommitNode(commit_hash)`
(lines 145-146 and 164-165). -/
def ensureNode (g : CommitGraph) (h : String) : CommitGraph :=
  if h ∈ g.keys then g
  else ⟨insert h g.keys, fun x => if x = h then freshNode h else g.nodeOf x⟩

/-- `node.parents = parent_hashes` (line 161). -/
def setParents (g : CommitGraph) (h : String) (ps : List String) : CommitGraph :=
  ⟨g.keys, fun x => if x = h then { g.nodeOf h with parents := ps } else g.nodeOf x⟩

/-- `graph[parent_hash].children.add(commit_hash)` (line 166). -/
def addChild (g : CommitGraph) (p c : String) : CommitGraph :=
  ⟨g.keys, fun x =>
    if x = p then { g.nodeOf p with children := insert c (g.nodeOf p).children }
    else g.nodeOf x⟩

/-- The parent loop of lines 163-167 run on the already-popped commit
`c`: ensure a node for each parent and record `c` as its child.  (The
accompanying stack pushes are done by the caller.) -/
def processParents (c : String) : List String → CommitGraph → CommitGraph
  | [], g => g
  | p :: ps, g => processParents c ps (addChild (ensureNode g p) p c)

/-- The `while stack:` loop of `build_commit_graph` (lines 139-167).
The stack is a list with its head as the top (Python pops and appends at
the end of the list, so the initial stack and each pushed parent block
appear reversed here).  `none` is returned if the iteration budget runs
out; `build_commit_graph` passes a provably sufficient budget. -/
def buildLoop (store : List (String × List String)) :
    Nat → Finset String → List String → CommitGraph → Option CommitGraph
  | _, _, [], g => some g
  | 0, _, _ :: _, _ => none
  | fuel + 1, visited, h :: rest, g =>
    if h ∈ visited then buildLoop store fuel visited rest g
    else
      match storeLookup store h with
      | none => buildLoop store fuel (insert h visited) rest (ensureNode g h)
      | some ps =>
        buildLoop store fuel (insert h visited) (ps.reverse ++ rest)
          (processParents h ps (setParents (ensureNode g h) h ps))

/-- Iteration budget for `buildLoop`: one iteration per initial stack
entry plus one per stored parent link (each commit is expanded at most
once thanks to the visited set). -/
def buildFuel (store : List (String × List String)) (bs : List (String × String)) : Nat :=
  bs.length + (store.map (fun kp => kp.2.length)).sum

/-- `build_commit_graph` (lines 126-169). -/
def build_commit_graph (store : List (String × List String))
    (branches_list : List (String × String)) : CommitGraph :=
  match buildLoop store (buildFuel store branches_list) ∅
      ((branches_list.map Prod.snd).reverse) ⟨∅, freshNode⟩ with
  | some g => g
  | none => ⟨∅, freshNode⟩

/-- `in_degree = {ch: len(node.children) for ch, node in graph.items()}`
(line 185), as a total `Int`-valued table (Python ints may go negative
when a parent hash is listed twice; outside the graph's keys the Python
dict has no entry and any access would raise, which the closure invariant
`build_graph_closed` shows cannot happen on graphs this program builds). -/
def initInDegree (g : CommitGraph) : String → Int :=
  fun ch => if ch ∈ g.keys then ((g.nodeOf ch).children.card : Int) else 0

/-- `next_choices = sorted([ch for ch, deg in in_degree.items() if deg == 0])`
(line 186). -/
def initReady (g : CommitGraph) : List String :=
  sortFinset (g.keys.filter (fun ch => (g.nodeOf ch).children.card = 0))

/-- The selection of lines 190-199: prefer the first parent of the
previously emitted commit if it is ready, else pop the head (the
smallest, since the ready list is kept sorted) of the ready list.
Returns the chosen hash and the remaining ready list. -/
def chooseNext (g : CommitGraph) (current : Option String) (ready : List String) :
    String × List String :=
  match current with
  | none => (ready.headD "", ready.tail)
  | some c =>
    match graphGet g c with
    | none => (ready.headD "", ready.tail)
    | some node =>
      match node.parents with
      | [] => (ready.headD "", ready.tail)
      | preferred :: _ =>
        if preferred ∈ ready then (preferred, ready.erase preferred)
        else (ready.headD "", ready.tail)

/-- The decrement loop of lines 204-207: for each parent occurrence,
decrement its counter and enqueue it when the counter reaches exactly 0. -/
def applyDecrements : List String → (String → Int) → List String → (String → Int) × List String
  | [], d, ready => (d, ready)
  | p :: ps, d, ready =>
    applyDecrements ps (fun x => if x = p then d x - 1 else d x)
      (if d p - 1 = 0 then ready ++ [p] else ready)

/-- One iteration of the `while next_choices:` loop body (lines 190-208):
choose, decrement the chosen commit's parents, and re-sort the ready
list.  Returns (chosen, new counters, new ready list). -/
def topoStep (g : CommitGraph) (current : Option String) (ready : List String)
    (d : String → Int) : String × (String → Int) × List String :=
  match graphGet g (chooseNext g current ready).1 with
  | some node =>
    ((chooseNext g current ready).1,
      (applyDecrements node.parents d (chooseNext g current ready).2).1,
      sortList (applyDecrements node.parents d (chooseNext g current ready).2).2)
  | none => ((chooseNext g current ready).1, d, sortList (chooseNext g current ready).2)

/-- The `while next_choices:` loop of lines 189-208, on an explicit
iteration budget. -/
def topoLoop (g : CommitGraph) :
    Nat → (String → Int) → List String → Option String → List String → List String
  | 0, _, _, _, order => order
  | fuel + 1, d, ready, current, order =>
    match ready with
    | [] => order
    | _ :: _ =>
      let s := topoStep g current ready d
      topoLoop g fuel s.2.1 s.2.2 (some s.1) (order ++ [s.1])

/-- All hashes the sequencer can ever touch: the keys and every hash
occurring in some key's parent list. -/
def spanSet (g : CommitGraph) : Finset String :=
  g.keys ∪ g.keys.biUnion (fun k => (g.nodeOf k).parents.toFinset)

/-- Loop variant for the sequencer: the ready-list length plus all the
positive counter mass; it strictly decreases at every iteration, so it is
a sufficient iteration budget. -/
def phi (g : CommitGraph) (d : String → Int) (ready : List String) : Nat :=
  ready.length + (spanSet g).sum (fun k => (d k).toNat)

/-- `topo_sort` (lines 176-209).  The `branch_heads` argument is, as in
the source, never read. -/
def topo_sort (graph : CommitGraph) (branch_heads : List String) : List String :=
  topoLoop graph (phi graph (initInDegree graph) (initReady graph))
    (initInDegree graph) (initReady graph) none []

/-- The head-commit-to-branch-names dict built at lines 280-282
(`setdefault(commit, []).append(branch)`), with the iteration over the
branch list written as recursion on that list: the value at a head is the
branch names mapping to it, in branch-list order. -/
def head_to_branches : List (String × String) → String → Option (List String)
  | [] => fun _ => none
  | (branch, commit) :: rest => fun x =>
    if x = commit then some (branch :: ((head_to_branches rest) commit).getD [])
    else head_to_branches rest x

/-- A commit's own output line (lines 232-236): the hash, followed by the
sorted space-joined branch names if it is a branch head. -/
def commitLine (h2b : String → Option (List String)) (c : String) : String :=
  match h2b c with
  | some names => c ++ " " ++ String.intercalate " " (sortList names)
  | none => c

/-- The sticky-end block of lines 238-253: emitted between the lines of
`c` and `next` exactly when `c` is in the graph, has a non-empty parent
list, and `next` is not one of its parents. -/
def stickyLines (g : CommitGraph) (c next : String) : List String :=
  match graphGet g c with
  | none => []
  | some node =>
    if node.parents ≠ [] ∧ next ∉ node.parents then
      [String.intercalate " " (sortList node.parents) ++ "=", "",
        match graphGet g next with
        | some nn => if nn.children ≠ ∅ then "=" ++ String.intercalate " " (sortFinset nn.children) else "="
        | none => "="]
    else []

/-- `ordered_print` (lines 216-253), with the printed lines collected
into a list; the loop over positions is written as recursion on the
order list. -/
def ordered_print (commit_nodes : CommitGraph) :
    List String → (String → Option (List String)) → List String
  | [], _ => []
  | [c], h2b => [commitLine h2b c]
  | c :: next :: rest, h2b =>
    (commitLine h2b c :: stickyLines commit_nodes c next) ++
      ordered_print commit_nodes (next :: rest) h2b

/-- `in_git_directory` (lines 36-42): checks only the working directory
itself for a `.git` subdirectory. -/
def in_git_directory (fs : List String → Bool) (cwd : List String) : Bool := fs cwd

/-- `get_git_directory` (lines 77-92): walk from the working directory up
to (but, as in the source's `while current_dir != os.path.dirname(current_dir)`
condition, not including) the root, returning the first directory with a
`.git` subdirectory, else exiting 1 with a diagnostic. -/
def get_git_directory (fs : List String → Bool) : List String → Except String (List String)
  | [] => Except.error "Not inside a Git repository"
  | d :: ds => if fs (d :: ds) then Except.ok (d :: ds) else get_git_directory fs ds

/-- `branch_heads = list({commit for _, commit in branches})` (line 275):
the deduplicated head hashes (the Python set's enumeration order is
irrelevant: `topo_sort` never reads this argument). -/
def branch_heads_of (branches : List (String × String)) : List String :=
  (branches.map Prod.snd).dedup

/-- `topo_order_commits` (lines 260-284).  The Branch Enumerator
(`get_branches`, spec section 6) is abstracted as a function from the
discovered `.git` path to the (branch name, head hash) list; the store is
the abstracted Object Reader. -/
def topo_order_commits (fs : List String → Bool) (cwd : List String)
    (store : List (String × List String))
    (get_branches : List String → List (String × String)) :
    Except String (List String) :=
  if in_git_directory fs cwd = false then Except.error "Not inside a Git repository"
  else
    match get_git_directory fs cwd with
    | Except.error e => Except.error e
    | Except.ok git_path =>
      let branches := get_branches git_path
      let commit_graph := build_commit_graph store branches
      let order := topo_sort commit_graph (branch_heads_of branches)
      Except.ok (ordered_print commit_graph order (head_to_branches branches))

/-- Well-formedness facts true of every graph `build_commit_graph`
produces: parent lists stay inside the key set, and the children sets are
exactly the co-parent relation restricted to the keys. -/
def GraphWF (g : CommitGraph) : Prop :=
  (∀ k ∈ g.keys, ∀ p ∈ (g.nodeOf k).parents, p ∈ g.keys) ∧
  (∀ k ∈ g.keys, (g.nodeOf k).children =
    g.keys.filter (fun c => k ∈ (g.nodeOf c).parents))

/-- Acyclicity of the parent relation, witnessed by a rank function that
increases from child to parent (ancestors have larger rank). -/
def Acyclic (g : CommitGraph) : Prop :=
  ∃ rank : String → Nat, ∀ x ∈ g.keys, ∀ p ∈ (g.nodeOf x).parents, rank x < rank p

/-- No commit lists the same parent hash twice. -/
def NoDupParents (g : CommitGraph) : Prop :=
  ∀ k ∈ g.keys, (g.nodeOf k).parents.Nodup

/-- The transitive parent closure of a head set over a store: exactly the
hashes `build_commit_graph` is specified to reach. -/
inductive Reach (store : List (String × List String)) (heads : Finset String) : String → Prop
  | head : ∀ {x}, x ∈ heads → Reach store heads x
  | parent : ∀ {x p}, Reach store heads x → p ∈ storeParents store x → Reach store heads p

/-! ## Basic facts about the sorting helpers -/

theorem sortList_perm (l : List String) : (sortList l).Perm l :=
  List.perm_insertionSort dataLe l

theorem sortList_sorted (l : List String) : List.Sorted dataLe (sortList l) :=
  List.sorted_insertionSort dataLe l

theorem sortList_eq_of_perm {l₁ l₂ : List String} (h : l₁.Perm l₂) :
    sortList l₁ = sortList l₂ :=
  @List.eq_of_perm_of_sorted String dataLe _ _ _
    (((sortList_perm l₁).trans h).trans (sortList_perm l₂).symm)
    (sortList_sorted l₁) (sortList_sorted l₂)

theorem mem_sortList {a : String} {l : List String} : a ∈ sortList l ↔ a ∈ l :=
  (sortList_perm l).mem_iff

theorem sortList_nodup {l : List String} (h : l.Nodup) : (sortList l).Nodup :=
  (sortList_perm l).nodup_iff.mpr h

theorem length_sortList (l : List String) : (sortList l).length = l.length :=
  (sortList_perm l).length_eq

theorem sortMultiset_mk (l : List String) :
    sortMultiset (l : Multiset String) = sortList l := rfl

theorem sortFinset_sorted (s : Finset String) : List.Sorted dataLe (sortFinset s) :=
  Quotient.inductionOn s.val (motive := fun m => List.Sorted dataLe (sortMultiset m))
    (fun l => sortList_sorted l)

theorem mem_sortFinset {a : String} {s : Finset String} : a ∈ sortFinset s ↔ a ∈ s := by
  have h : ∀ m : Multiset String, (a ∈ sortMultiset m ↔ a ∈ m) :=
    fun m => Quotient.inductionOn m (fun l => by
      simpa [sortMultiset_mk] using (mem_sortList (a := a) (l := l)))
  exact (h s.val).trans Finset.mem_def.symm

theorem sortFinset_nodup (s : Finset String) : (sortFinset s).Nodup := by
  have h : ∀ m : Multiset String, m.Nodup → (sortMultiset m).Nodup :=
    fun m => Quotient.inductionOn m (fun l hl => sortList_nodup (by simpa using hl))
  exact h s.val s.nodup

theorem length_sortFinset (s : Finset String) : (sortFinset s).length = s.card := by
  have h : ∀ m : Multiset String, (sortMultiset m).length = Multiset.card m :=
    fun m => Quotient.inductionOn m (fun l => by
      simpa [sortMultiset_mk] using length_sortList l)
  exact h s.val

/-! ## Pointwise description of the graph-building primitives -/

theorem ensureNode_keys (g : CommitGraph) (h : String) :
    (ensureNode g h).keys = insert h g.keys := by
  unfold ensureNode
  split
  · next hk => exact (Finset.insert_eq_self.mpr hk).symm
  · rfl

theorem ensureNode_nodeOf (g : CommitGraph) (h : String)
    (hfr : ∀ x ∉ g.keys, g.nodeOf x = freshNode x) (x : String) :
    (ensureNode g h).nodeOf x = g.nodeOf x := by
  unfold ensureNode
  split
  · rfl
  · next hk =>
    by_cases hx : x = h
    · subst hx
      simpa using (hfr x hk).symm
    · simp [hx]

theorem setParents_keys (g : CommitGraph) (h : String) (ps : List String) :
    (setParents g h ps).keys = g.keys := rfl

theorem setParents_nodeOf_self (g : CommitGraph) (h : String) (ps : List String) :
    (setParents g h ps).nodeOf h = { g.nodeOf h with parents := ps } := by
  simp [setParents]

theorem setParents_nodeOf_ne (g : CommitGraph) (h : String) (ps : List String)
    {x : String} (hx : x ≠ h) : (setParents g h ps).nodeOf x = g.nodeOf x := by
  simp [setParents, hx]

theorem processParents_keys (c : String) :
    ∀ (ps : List String) (g : CommitGraph),
      (processParents c ps g).keys = g.keys ∪ ps.toFinset
  | [], g => by simp [processParents]
  | p :: ps, g => by
    rw [processParents, processParents_keys c ps]
    ext y
    simp only [addChild, ensureNode_keys, Finset.mem_union, Finset.mem_insert,
      List.toFinset_cons, List.mem_toFinset, List.mem_cons]
    tauto

theorem processParents_fresh (c : String) :
    ∀ (ps : List String) (g : CommitGraph),
      (∀ x ∉ g.keys, g.nodeOf x = freshNode x) →
      ∀ x ∉ (processParents c ps g).keys, (processParents c ps g).nodeOf x = freshNode x
  | [], g, hfr => hfr
  | p :: ps, g, hfr => by
    rw [processParents]
    refine processParents_fresh c ps _ ?_
    intro x hx
    have hxk : x ∉ (ensureNode g p).keys := by simpa [addChild] using hx
    have hxp : x ≠ p := by
      intro he
      exact hxk (by simp [ensureNode_keys, he])
    have hxg : x ∉ g.keys := fun hg => hxk (by simp [ensureNode_keys, hg])
    simp only [addChild]
    rw [if_neg hxp]
    rw [ensureNode_nodeOf g p hfr x]
    exact hfr x hxg

theorem processParents_nodeOf (c : String) :
    ∀ (ps : List String) (g : CommitGraph),
      (∀ x ∉ g.keys, g.nodeOf x = freshNode x) →
      ∀ x,
        ((processParents c ps g).nodeOf x).parents = (g.nodeOf x).parents ∧
        ((processParents c ps g).nodeOf x).commit_hash = (g.nodeOf x).commit_hash ∧
        ((processParents c ps g).nodeOf x).children =
          (g.nodeOf x).children ∪ (if x ∈ ps then {c} else ∅)
  | [], g, hfr, x => by simp [processParents]
  | p :: ps, g, hfr, x => by
    rw [processParents]
    have hfr' : ∀ y ∉ (addChild (ensureNode g p) p c).keys,
        (addChild (ensureNode g p) p c).nodeOf y = freshNode y := by
      intro y hy
      have hyk : y ∉ (ensureNode g p).keys := by simpa [addChild] using hy
      have hyp : y ≠ p := fun he => hyk (by simp [ensureNode_keys, he])
      have hyg : y ∉ g.keys := fun hg => hyk (by simp [ensureNode_keys, hg])
      simp only [addChild]
      rw [if_neg hyp, ensureNode_nodeOf g p hfr y]
      exact hfr y hyg
    have hmid : ∀ y, (addChild (ensureNode g p) p c).nodeOf y =
        if y = p then { g.nodeOf p with children := insert c (g.nodeOf p).children }
        else g.nodeOf y := by
      intro y
      by_cases hyp : y = p
      · rw [if_pos hyp, hyp]
        simp [addChild, ensureNode_nodeOf g p hfr p]
      · rw [if_neg hyp]
        simp only [addChild, if_neg hyp]
        rw [ensureNode_nodeOf g p hfr y]
    obtain ⟨ih1, ih2, ih3⟩ := processParents_nodeOf c ps _ hfr' x
    rw [hmid x] at ih1 ih2 ih3
    by_cases hxp : x = p
    · subst hxp
      rw [if_pos rfl] at ih1 ih2 ih3
      refine ⟨ih1, ih2, ?_⟩
      rw [ih3, if_pos (List.mem_cons_self x ps)]
      by_cases hxps : x ∈ ps
      · rw [if_pos hxps]
        ext y
        simp only [Finset.mem_union, Finset.mem_insert, Finset.mem_singleton]
        tauto
      · rw [if_neg hxps]
        ext y
        simp only [Finset.mem_union, Finset.mem_insert, Finset.mem_singleton,
          Finset.union_empty, Finset.not_mem_empty]
        tauto
    · rw [if_neg hxp] at ih1 ih2 ih3
      refine ⟨ih1, ih2, ?_⟩
      rw [ih3]
      have hmem : (x ∈ p :: ps) ↔ (x ∈ ps) := by simp [List.mem_cons, hxp]
      by_cases hxps : x ∈ ps
      · rw [if_pos hxps, if_pos (hmem.mpr hxps)]
      · rw [if_neg hxps, if_neg (fun hc => hxps (hmem.mp hc))]

/-! ## The loop variant of the build loop -/

/-- Remaining work bound for `buildLoop`: the stack length plus the
parent-list lengths of all not-yet-visited store entries. -/
def psi (store : List (String × List String)) (v : Finset String) (s : List String) : Nat :=
  s.length + ((store.filter (fun kp => decide (kp.1 ∉ v))).map (fun kp => kp.2.length)).sum

theorem sum_filter_mono (f : (String × List String) → Nat)
    (p q : (String × List String) → Bool) (hpq : ∀ a, p a = true → q a = true) :
    ∀ l : List (String × List String),
      ((l.filter p).map f).sum ≤ ((l.filter q).map f).sum
  | [] => le_refl _
  | a :: l => by
    have ih := sum_filter_mono f p q hpq l
    simp only [List.filter_cons]
    by_cases hp : p a = true
    · rw [if_pos hp, if_pos (hpq a hp)]
      simp only [List.map_cons, List.sum_cons]
      omega
    · rw [if_neg hp]
      by_cases hq : q a = true
      · rw [if_pos hq]
        simp only [List.map_cons, List.sum_cons]
        omega
      · rw [if_neg hq]
        exact ih

theorem sum_filter_insert_le (v : Finset String) (h : String) (ps : List String) (hv : h ∉ v) :
    ∀ store : List (String × List String), storeLookup store h = some ps →
      ps.length +
        ((store.filter (fun kp => decide (kp.1 ∉ insert h v))).map (fun kp => kp.2.length)).sum ≤
      ((store.filter (fun kp => decide (kp.1 ∉ v))).map (fun kp => kp.2.length)).sum
  | [], hl => by simp [storeLookup] at hl
  | (k, qs) :: store, hl => by
    have hmono := sum_filter_mono (fun kp => kp.2.length)
      (fun kp => decide (kp.1 ∉ insert h v)) (fun kp => decide (kp.1 ∉ v))
      (fun a ha => by
        simp only [decide_eq_true_eq] at ha ⊢
        exact fun hav => ha (Finset.mem_insert_of_mem hav)) store
    by_cases hk : h = k
    · subst hk
      rw [storeLookup, if_pos rfl] at hl
      obtain rfl : qs = ps := by simpa using hl
      have c1 : (decide (h ∉ insert h v)) = false := by simp
      have c2 : (decide (h ∉ v)) = true := by simpa using hv
      simp only [List.filter_cons]
      rw [c1, c2, if_neg Bool.false_ne_true, if_pos rfl]
      simp only [List.map_cons, List.sum_cons]
      omega
    · rw [storeLookup, if_neg hk] at hl
      have ih := sum_filter_insert_le v h ps hv store hl
      have hmem : (k ∈ insert h v) ↔ (k ∈ v) :=
        ⟨fun hc => (Finset.mem_insert.mp hc).resolve_left (fun he => hk he.symm),
          Finset.mem_insert_of_mem⟩
      by_cases hkv : (k : String) ∈ v
      · have c1 : (decide (k ∉ insert h v)) = false := by simp [hmem.mpr hkv]
        have c2 : (decide (k ∉ v)) = false := by simp [hkv]
        simp only [List.filter_cons]
        rw [c1, c2, if_neg Bool.false_ne_true, if_neg Bool.false_ne_true]
        exact ih
      · have c1 : (decide (k ∉ insert h v)) = true := by
          simpa using fun hc => hkv (hmem.mp hc)
        have c2 : (decide (k ∉ v)) = true := by simpa using hkv
        simp only [List.filter_cons]
        rw [c1, c2, if_pos rfl, if_pos rfl]
        simp only [List.map_cons, List.sum_cons]
        omega

/-! ## The build-loop invariant and its preservation -/

/-- The children set the builder maintains for `x`: the visited commits
that list `x` among their stored parents. -/
def childrenSpec (store : List (String × List String)) (v : Finset String) (x : String) :
    Finset String :=
  v.filter (fun c => x ∈ storeParents store c)

/-- Invariant of the `build_commit_graph` work loop, relating the visited
set `v`, the work stack `s` and the graph built so far. -/
structure BuildInv (store : List (String × List String)) (heads : Finset String)
    (v : Finset String) (s : List String) (g : CommitGraph) : Prop where
  fresh : ∀ x ∉ g.keys, g.nodeOf x = freshNode x
  hash_eq : ∀ x, (g.nodeOf x).commit_hash = x
  vis_keys : v ⊆ g.keys
  keys_cover : ∀ x ∈ g.keys, x ∈ v ∨ x ∈ s
  par_vis : ∀ x ∈ v, (g.nodeOf x).parents = storeParents store x
  par_unvis : ∀ x, x ∉ v → (g.nodeOf x).parents = []
  child_eq : ∀ x, (g.nodeOf x).children = childrenSpec store v x
  closed : ∀ x ∈ v, ∀ p ∈ storeParents store x, p ∈ g.keys
  reach_v : ∀ x ∈ v, Reach store heads x
  reach_s : ∀ x ∈ s, Reach store heads x

theorem buildLoop_spec (store : List (String × List String)) (heads : Finset String) :
    ∀ (fuel : Nat) (v : Finset String) (s : List String) (g : CommitGraph),
      BuildInv store heads v s g → psi store v s ≤ fuel →
      ∃ g' v', buildLoop store fuel v s g = some g' ∧
        BuildInv store heads v' [] g' ∧ v ⊆ v' ∧ ∀ x ∈ s, x ∈ v' := by
  intro fuel
  induction fuel with
  | zero =>
    intro v s g hinv hpsi
    cases s with
    | nil => exact ⟨g, v, rfl, hinv, Finset.Subset.refl v, by simp⟩
    | cons h t => simp [psi] at hpsi
  | succ n ih =>
    intro v s g hinv hpsi
    cases s with
    | nil => exact ⟨g, v, rfl, hinv, Finset.Subset.refl v, by simp⟩
    | cons h t =>
      have hunf : buildLoop store (n + 1) v (h :: t) g =
          if h ∈ v then buildLoop store n v t g
          else
            match storeLookup store h with
            | none => buildLoop store n (insert h v) t (ensureNode g h)
            | some ps =>
              buildLoop store n (insert h v) (ps.reverse ++ t)
                (processParents h ps (setParents (ensureNode g h) h ps)) := rfl
      by_cases hv : h ∈ v
      · -- revisit guard: pop and skip
        have hpsi' : psi store v t ≤ n := by
          simp only [psi, List.length_cons] at hpsi ⊢
          omega
        have hinv2 : BuildInv store heads v t g :=
          { fresh := hinv.fresh, hash_eq := hinv.hash_eq, vis_keys := hinv.vis_keys
            keys_cover := by
              intro x hx
              rcases hinv.keys_cover x hx with hxv | hxs
              · exact Or.inl hxv
              · rcases List.mem_cons.mp hxs with rfl | hxt
                · exact Or.inl hv
                · exact Or.inr hxt
            par_vis := hinv.par_vis, par_unvis := hinv.par_unvis
            child_eq := hinv.child_eq, closed := hinv.closed
            reach_v := hinv.reach_v
            reach_s := fun x hx => hinv.reach_s x (List.mem_cons_of_mem h hx) }
        obtain ⟨g', v', heq, hinv', hsub, hsv⟩ := ih v t g hinv2 hpsi'
        refine ⟨g', v', ?_, hinv', hsub, ?_⟩
        · rw [hunf, if_pos hv]
          exact heq
        · intro x hx
          rcases List.mem_cons.mp hx with rfl | hxt
          · exact hsub hv
          · exact hsv x hxt
      · cases hls : storeLookup store h with
        | none =>
          have hsp : storeParents store h = [] := by simp [storeParents, hls]
          have hnod : ∀ x, (ensureNode g h).nodeOf x = g.nodeOf x :=
            ensureNode_nodeOf g h hinv.fresh
          have hpsi' : psi store (insert h v) t ≤ n := by
            have hmono := sum_filter_mono (fun kp => kp.2.length)
              (fun kp => decide (kp.1 ∉ insert h v)) (fun kp => decide (kp.1 ∉ v))
              (fun a ha => by
                simp only [decide_eq_true_eq] at ha ⊢
                exact fun hav => ha (Finset.mem_insert_of_mem hav)) store
            simp only [psi, List.length_cons] at hpsi ⊢
            omega
          have hinv2 : BuildInv store heads (insert h v) t (ensureNode g h) :=
            { fresh := by
                intro x hx
                rw [ensureNode_keys] at hx
                rw [hnod x]
                exact hinv.fresh x (fun hk => hx (Finset.mem_insert_of_mem hk))
              hash_eq := fun x => by rw [hnod x]; exact hinv.hash_eq x
              vis_keys := by
                rw [ensureNode_keys]
                exact Finset.insert_subset_insert h hinv.vis_keys
              keys_cover := by
                intro x hx
                rw [ensureNode_keys] at hx
                rcases Finset.mem_insert.mp hx with rfl | hxk
                · exact Or.inl (Finset.mem_insert_self x v)
                · rcases hinv.keys_cover x hxk with hxv | hxs
                  · exact Or.inl (Finset.mem_insert_of_mem hxv)
                  · rcases List.mem_cons.mp hxs with rfl | hxt
                    · exact Or.inl (Finset.mem_insert_self x v)
                    · exact Or.inr hxt
              par_vis := by
                intro x hx
                rw [hnod x]
                rcases Finset.mem_insert.mp hx with rfl | hxv
                · rw [hsp]
                  exact hinv.par_unvis x hv
                · exact hinv.par_vis x hxv
              par_unvis := by
                intro x hx
                rw [hnod x]
                exact hinv.par_unvis x (fun hxv => hx (Finset.mem_insert_of_mem hxv))
              child_eq := by
                intro x
                rw [hnod x, hinv.child_eq x]
                unfold childrenSpec
                rw [Finset.filter_insert, if_neg (by simp [hsp])]
              closed := by
                intro x hx p hp
                rw [ensureNode_keys]
                rcases Finset.mem_insert.mp hx with rfl | hxv
                · rw [hsp] at hp
                  exact absurd hp (List.not_mem_nil p)
                · exact Finset.mem_insert_of_mem (hinv.closed x hxv p hp)
              reach_v := by
                intro x hx
                rcases Finset.mem_insert.mp hx with rfl | hxv
                · exact hinv.reach_s x (List.mem_cons_self x t)
                · exact hinv.reach_v x hxv
              reach_s := fun x hx => hinv.reach_s x (List.mem_cons_of_mem h hx) }
          obtain ⟨g', v', heq, hinv', hsub, hsv⟩ := ih (insert h v) t (ensureNode g h) hinv2 hpsi'
          refine ⟨g', v', ?_, hinv', ?_, ?_⟩
          · rw [hunf, if_neg hv, hls]
            exact heq
          · exact fun x hx => hsub (Finset.mem_insert_of_mem hx)
          · intro x hx
            rcases List.mem_cons.mp hx with rfl | hxt
            · exact hsub (Finset.mem_insert_self x v)
            · exact hsv x hxt
        | some ps =>
          have hsp : storeParents store h = ps := by simp [storeParents, hls]
          have hnod : ∀ x, (ensureNode g h).nodeOf x = g.nodeOf x :=
            ensureNode_nodeOf g h hinv.fresh
          -- the graph after setting the parents of `h`
          have hgbK : (setParents (ensureNode g h) h ps).keys = insert h g.keys := by
            rw [setParents_keys, ensureNode_keys]
          have hgbH : (setParents (ensureNode g h) h ps).nodeOf h =
              { g.nodeOf h with parents := ps } := by
            rw [setParents_nodeOf_self, hnod h]
          have hgbX : ∀ x, x ≠ h → (setParents (ensureNode g h) h ps).nodeOf x = g.nodeOf x := by
            intro x hx
            rw [setParents_nodeOf_ne _ _ _ hx, hnod x]
          have hgbF : ∀ x ∉ (setParents (ensureNode g h) h ps).keys,
              (setParents (ensureNode g h) h ps).nodeOf x = freshNode x := by
            intro x hx
            rw [hgbK] at hx
            have hxh : x ≠ h := fun he => hx (he ▸ Finset.mem_insert_self h g.keys)
            rw [hgbX x hxh]
            exact hinv.fresh x (fun hk => hx (Finset.mem_insert_of_mem hk))
          set g2 := processParents h ps (setParents (ensureNode g h) h ps) with hg2
          have hK2 : g2.keys = insert h g.keys ∪ ps.toFinset := by
            rw [hg2, processParents_keys, hgbK]
          have hN2 := processParents_nodeOf h ps (setParents (ensureNode g h) h ps) hgbF
          have hpsi' : psi store (insert h v) (ps.reverse ++ t) ≤ n := by
            have hle := sum_filter_insert_le v h ps hv store hls
            simp only [psi, List.length_cons, List.length_append, List.length_reverse] at hpsi ⊢
            omega
          have hinv2 : BuildInv store heads (insert h v) (ps.reverse ++ t) g2 :=
            { fresh := processParents_fresh h ps _ hgbF
              hash_eq := by
                intro x
                rcases hN2 x with ⟨_, h2, _⟩
                rw [h2]
                by_cases hxh : x = h
                · rw [hxh, hgbH]
                  exact hinv.hash_eq h
                · rw [hgbX x hxh]
                  exact hinv.hash_eq x
              vis_keys := by
                rw [hK2]
                intro x hx
                rcases Finset.mem_insert.mp hx with rfl | hxv
                · exact Finset.mem_union_left _ (Finset.mem_insert_self x g.keys)
                · exact Finset.mem_union_left _
                    (Finset.mem_insert_of_mem (hinv.vis_keys hxv))
              keys_cover := by
                intro x hx
                rw [hK2] at hx
                rcases Finset.mem_union.mp hx with hx1 | hx2
                · rcases Finset.mem_insert.mp hx1 with rfl | hxk
                  · exact Or.inl (Finset.mem_insert_self x v)
                  · rcases hinv.keys_cover x hxk with hxv | hxs
                    · exact Or.inl (Finset.mem_insert_of_mem hxv)
                    · rcases List.mem_cons.mp hxs with rfl | hxt
                      · exact Or.inl (Finset.mem_insert_self x v)
                      · exact Or.inr (List.mem_append_right _ hxt)
                · exact Or.inr (List.mem_append_left _
                    (List.mem_reverse.mpr (List.mem_toFinset.mp hx2)))
              par_vis := by
                intro x hx
                rcases hN2 x with ⟨h1, _, _⟩
                rw [h1]
                rcases Finset.mem_insert.mp hx with rfl | hxv
                · rw [hgbH, hsp]
                · have hxh : x ≠ h := fun he => hv (he ▸ hxv)
                  rw [hgbX x hxh]
                  exact hinv.par_vis x hxv
              par_unvis := by
                intro x hx
                rcases hN2 x with ⟨h1, _, _⟩
                rw [h1]
                have hxh : x ≠ h := fun he => hx (he ▸ Finset.mem_insert_self h v)
                rw [hgbX x hxh]
                exact hinv.par_unvis x (fun hxv => hx (Finset.mem_insert_of_mem hxv))
              child_eq := by
                intro x
                rcases hN2 x with ⟨_, _, h3⟩
                rw [h3]
                have hch : (setParents (ensureNode g h) h ps).nodeOf x =
                    { g.nodeOf x with parents := ((setParents (ensureNode g h) h ps).nodeOf x).parents } := by
                  by_cases hxh : x = h
                  · rw [hxh, hgbH]
                  · rw [hgbX x hxh]
                have hchc : ((setParents (ensureNode g h) h ps).nodeOf x).children =
                    (g.nodeOf x).children := by rw [hch]
                rw [hchc, hinv.child_eq x]
                unfold childrenSpec
                rw [Finset.filter_insert, hsp]
                by_cases hxps : x ∈ ps
                · rw [if_pos hxps, if_pos hxps]
                  ext y
                  simp only [Finset.mem_union, Finset.mem_insert, Finset.mem_singleton]
                  tauto
                · rw [if_neg hxps, if_neg hxps, Finset.union_empty]
              closed := by
                intro x hx p hp
                rw [hK2]
                rcases Finset.mem_insert.mp hx with rfl | hxv
                · rw [hsp] at hp
                  exact Finset.mem_union_right _ (List.mem_toFinset.mpr hp)
                · exact Finset.mem_union_left _
                    (Finset.mem_insert_of_mem (hinv.closed x hxv p hp))
              reach_v := by
                intro x hx
                rcases Finset.mem_insert.mp hx with rfl | hxv
                · exact hinv.reach_s x (List.mem_cons_self x t)
                · exact hinv.reach_v x hxv
              reach_s := by
                intro x hx
                rcases List.mem_append.mp hx with hx1 | hx2
                · refine Reach.parent (hinv.reach_s h (List.mem_cons_self h t)) ?_
                  rw [hsp]
                  exact List.mem_reverse.mp hx1
                · exact hinv.reach_s x (List.mem_cons_of_mem h hx2) }
          obtain ⟨g', v', heq, hinv', hsub, hsv⟩ :=
            ih (insert h v) (ps.reverse ++ t) g2 hinv2 hpsi'
          refine ⟨g', v', ?_, hinv', ?_, ?_⟩
          · rw [hunf, if_neg hv, hls]
            exact heq
          · exact fun x hx => hsub (Finset.mem_insert_of_mem hx)
          · intro x hx
            rcases List.mem_cons.mp hx with rfl | hxt
            · exact hsub (Finset.mem_insert_self x v)
            · exact hsv x (List.mem_append_right _ hxt)

/-! ## Characterization of the built graph -/

/-- The set of head hashes of a branch list. -/
def headsOf (bs : List (String × String)) : Finset String := (bs.map Prod.snd).toFinset

theorem buildInit_inv (store : List (String × List String)) (bs : List (String × String)) :
    BuildInv store (headsOf bs) ∅ ((bs.map Prod.snd).reverse) ⟨∅, freshNode⟩ :=
  { fresh := fun _ _ => rfl
    hash_eq := fun _ => rfl
    vis_keys := Finset.empty_subset _
    keys_cover := fun x hx => absurd hx (Finset.not_mem_empty x)
    par_vis := fun x hx => absurd hx (Finset.not_mem_empty x)
    par_unvis := fun _ _ => rfl
    child_eq := by
      intro x
      unfold childrenSpec
      simp [freshNode]
    closed := fun x hx => absurd hx (Finset.not_mem_empty x)
    reach_v := fun x hx => absurd hx (Finset.not_mem_empty x)
    reach_s := fun x hx =>
      Reach.head (List.mem_toFinset.mpr (List.mem_reverse.mp hx)) }

theorem psi_init (store : List (String × List String)) (bs : List (String × String)) :
    psi store ∅ ((bs.map Prod.snd).reverse) = buildFuel store bs := by
  unfold psi buildFuel
  have hf : store.filter (fun kp => decide (kp.1 ∉ (∅ : Finset String))) = store :=
    List.filter_eq_self.mpr (fun a _ => by simp)
  rw [hf]
  simp

theorem build_final (store : List (String × List String)) (bs : List (String × String)) :
    ∃ v', buildLoop store (buildFuel store bs) ∅ ((bs.map Prod.snd).reverse) ⟨∅, freshNode⟩ =
        some (build_commit_graph store bs) ∧
      BuildInv store (headsOf bs) v' [] (build_commit_graph store bs) ∧
      ∀ x ∈ bs.map Prod.snd, x ∈ v' := by
  obtain ⟨g', v', heq, hinv, _, hsv⟩ :=
    buildLoop_spec store (headsOf bs) (buildFuel store bs) ∅
      ((bs.map Prod.snd).reverse) ⟨∅, freshNode⟩ (buildInit_inv store bs)
      (le_of_eq (psi_init store bs))
  have hbg : build_commit_graph store bs = g' := by
    unfold build_commit_graph
    rw [heq]
  refine ⟨v', ?_, ?_, ?_⟩
  · rw [hbg]; exact heq
  · rw [hbg]; exact hinv
  · intro x hx
    exact hsv x (List.mem_reverse.mpr hx)

theorem build_inv (store : List (String × List String)) (bs : List (String × String)) :
    BuildInv store (headsOf bs) (build_commit_graph store bs).keys []
        (build_commit_graph store bs) ∧
      ∀ x ∈ bs.map Prod.snd, x ∈ (build_commit_graph store bs).keys := by
  obtain ⟨v', _, hinv, hsv⟩ := build_final store bs
  have hv : v' = (build_commit_graph store bs).keys := by
    apply Finset.Subset.antisymm hinv.vis_keys
    intro x hx
    rcases hinv.keys_cover x hx with hxv | hxs
    · exact hxv
    · exact absurd hxs (List.not_mem_nil x)
  rw [hv] at hinv hsv
  exact ⟨hinv, hsv⟩

theorem build_mem_keys_iff (store : List (String × List String)) (bs : List (String × String))
    (x : String) :
    x ∈ (build_commit_graph store bs).keys ↔ Reach store (headsOf bs) x := by
  obtain ⟨hinv, hsv⟩ := build_inv store bs
  constructor
  · exact fun hx => hinv.reach_v x hx
  · intro hr
    induction hr with
    | head hx => exact hsv _ (by simpa [List.mem_map] using List.mem_toFinset.mp hx)
    | parent hr hp ih => exact hinv.closed _ ih _ hp

theorem build_wf (store : List (String × List String)) (bs : List (String × String)) :
    GraphWF (build_commit_graph store bs) := by
  obtain ⟨hinv, _⟩ := build_inv store bs
  constructor
  · intro k hk p hp
    rw [hinv.par_vis k hk] at hp
    exact hinv.closed k hk p hp
  · intro k hk
    rw [hinv.child_eq k]
    unfold childrenSpec
    apply Finset.filter_congr
    intro c hc
    rw [hinv.par_vis c hc]

theorem build_eq_of_headsOf_eq (store : List (String × List String))
    (bs1 bs2 : List (String × String)) (hh : headsOf bs1 = headsOf bs2) :
    build_commit_graph store bs1 = build_commit_graph store bs2 := by
  obtain ⟨hinv1, _⟩ := build_inv store bs1
  obtain ⟨hinv2, _⟩ := build_inv store bs2
  have hkeys : (build_commit_graph store bs1).keys = (build_commit_graph store bs2).keys := by
    ext x
    rw [build_mem_keys_iff, build_mem_keys_iff, hh]
  have hnode : (build_commit_graph store bs1).nodeOf = (build_commit_graph store bs2).nodeOf := by
    funext x
    by_cases hx : x ∈ (build_commit_graph store bs1).keys
    · have hx2 : x ∈ (build_commit_graph store bs2).keys := hkeys ▸ hx
      have e1 : (build_commit_graph store bs1).nodeOf x =
          ⟨x, storeParents store x, childrenSpec store (build_commit_graph store bs1).keys x⟩ := by
        have c1 := hinv1.hash_eq x
        have c2 := hinv1.par_vis x hx
        have c3 := hinv1.child_eq x
        cases hrep : (build_commit_graph store bs1).nodeOf x with
        | mk a b c =>
          rw [hrep] at c1 c2 c3
          simp only at c1 c2 c3
          rw [c1, c2, c3]
      have e2 : (build_commit_graph store bs2).nodeOf x =
          ⟨x, storeParents store x, childrenSpec store (build_commit_graph store bs2).keys x⟩ := by
        have c1 := hinv2.hash_eq x
        have c2 := hinv2.par_vis x hx2
        have c3 := hinv2.child_eq x
        cases hrep : (build_commit_graph store bs2).nodeOf x with
        | mk a b c =>
          rw [hrep] at c1 c2 c3
          simp only at c1 c2 c3
          rw [c1, c2, c3]
      rw [e1, e2, hkeys]
    · have hx2 : x ∉ (build_commit_graph store bs2).keys := hkeys ▸ hx
      rw [hinv1.fresh x hx, hinv2.fresh x hx2]
  cases hb1 : build_commit_graph store bs1 with
  | mk k1 n1 =>
    cases hb2 : build_commit_graph store bs2 with
    | mk k2 n2 =>
      rw [hb1, hb2] at hkeys hnode
      simp only at hkeys hnode
      rw [hkeys, hnode]

/-! ## The sequencer: selection and decrement lemmas -/

theorem chooseNext_spec (g : CommitGraph) (cur : Option String) (ready : List String)
    (hne : ready ≠ []) :
    (chooseNext g cur ready).1 ∈ ready ∧
      (chooseNext g cur ready).2 = ready.erase (chooseNext g cur ready).1 := by
  cases ready with
  | nil => exact absurd rfl hne
  | cons r rs =>
    have hbase : r ∈ r :: rs ∧ rs = (r :: rs).erase r :=
      ⟨List.mem_cons_self r rs, (List.erase_cons_head r rs).symm⟩
    cases cur with
    | none => exact hbase
    | some c =>
      cases hgg : graphGet g c with
      | none =>
        simp only [chooseNext, hgg]
        exact hbase
      | some node =>
        cases hnp : node.parents with
        | nil =>
          simp only [chooseNext, hgg, hnp]
          exact hbase
        | cons preferred rest =>
          by_cases hp : preferred ∈ r :: rs
          · simp only [chooseNext, hgg, hnp, if_pos hp]
            exact ⟨hp, trivial⟩
          · simp only [chooseNext, hgg, hnp, if_neg hp]
            exact hbase

theorem applyDecrements_fst :
    ∀ (ps : List String) (d : String → Int) (r : List String) (x : String),
      (applyDecrements ps d r).1 x = d x - ps.count x
  | [], d, r, x => by simp [applyDecrements]
  | p :: ps, d, r, x => by
    rw [applyDecrements]
    rw [applyDecrements_fst ps _ _ x]
    by_cases hx : x = p
    · subst hx
      rw [List.count_cons_self, if_pos rfl]
      push_cast
      ring
    · rw [if_neg hx, List.count_cons_of_ne hx]

theorem applyDecrements_snd :
    ∀ (ps : List String) (d : String → Int) (r : List String),
      ∃ new, (applyDecrements ps d r).2 = r ++ new ∧ ∀ q ∈ new, q ∈ ps
  | [], d, r => ⟨[], by simp [applyDecrements]⟩
  | p :: ps, d, r => by
    by_cases hz : d p - 1 = 0
    · obtain ⟨new, hnew, hmem⟩ :=
        applyDecrements_snd ps (fun x => if x = p then d x - 1 else d x) (r ++ [p])
      refine ⟨p :: new, ?_, ?_⟩
      · rw [applyDecrements, if_pos hz, hnew]
        simp
      · intro q hq
        rcases List.mem_cons.mp hq with rfl | hq'
        · exact List.mem_cons_self q ps
        · exact List.mem_cons_of_mem p (hmem q hq')
    · obtain ⟨new, hnew, hmem⟩ :=
        applyDecrements_snd ps (fun x => if x = p then d x - 1 else d x) r
      refine ⟨new, ?_, fun q hq => List.mem_cons_of_mem p (hmem q hq)⟩
      rw [applyDecrements, if_neg hz, hnew]

theorem sum_toNat_dec (S : Finset String) (d : String → Int) (p : String) (hpS : p ∈ S) :
    (S.sum fun k => (if k = p then d k - 1 else d k).toNat) +
      (if d p - 1 = 0 then 1 else 0) ≤ S.sum fun k => (d k).toNat := by
  have hs1 : (d p - 1).toNat + ((S.erase p).sum fun x => (if x = p then d x - 1 else d x).toNat) =
      S.sum fun k => (if k = p then d k - 1 else d k).toNat := by
    simpa using Finset.add_sum_erase S (fun k => (if k = p then d k - 1 else d k).toNat) hpS
  have hs2 : (d p).toNat + ((S.erase p).sum fun x => (d x).toNat) = S.sum fun k => (d k).toNat := by
    simpa using Finset.add_sum_erase S (fun k => (d k).toNat) hpS
  have hcongr : ((S.erase p).sum fun x => (if x = p then d x - 1 else d x).toNat) =
      (S.erase p).sum fun x => (d x).toNat :=
    Finset.sum_congr rfl (fun x hx => by rw [if_neg (Finset.ne_of_mem_erase hx)])
  rw [hcongr] at hs1
  by_cases hz : d p - 1 = 0
  · rw [if_pos hz]
    omega
  · rw [if_neg hz]
    omega

theorem applyDecrements_philen (S : Finset String) :
    ∀ (ps : List String) (d : String → Int) (r : List String),
      (∀ p ∈ ps, p ∈ S) →
      (S.sum fun k => ((applyDecrements ps d r).1 k).toNat) +
          ((applyDecrements ps d r).2).length ≤
        (S.sum fun k => (d k).toNat) + r.length
  | [], d, r, _ => le_refl _
  | p :: ps, d, r, hps => by
    have hpS : p ∈ S := hps p (List.mem_cons_self p ps)
    have ih0 := applyDecrements_philen S ps (fun x => if x = p then d x - 1 else d x)
      (if d p - 1 = 0 then r ++ [p] else r)
      (fun q hq => hps q (List.mem_cons_of_mem p hq))
    have ih : (S.sum fun k =>
          ((applyDecrements ps (fun x => if x = p then d x - 1 else d x)
            (if d p - 1 = 0 then r ++ [p] else r)).1 k).toNat) +
        ((applyDecrements ps (fun x => if x = p then d x - 1 else d x)
            (if d p - 1 = 0 then r ++ [p] else r)).2).length ≤
        (S.sum fun k => (if k = p then d k - 1 else d k).toNat) +
          (if d p - 1 = 0 then r ++ [p] else r).length := by
      simpa using ih0
    have hdec := sum_toNat_dec S d p hpS
    have hlen : (if d p - 1 = 0 then r ++ [p] else r).length =
        r.length + (if d p - 1 = 0 then 1 else 0) := by
      by_cases hz : d p - 1 = 0
      · rw [if_pos hz, if_pos hz, List.length_append, List.length_singleton]
      · rw [if_neg hz, if_neg hz]
        omega
    rw [applyDecrements]
    rw [hlen] at ih
    omega

/-- Every iteration of the sequencer loop strictly decreases `phi`. -/
theorem topoStep_phi (g : CommitGraph) (cur : Option String) (ready : List String)
    (d : String → Int) (hne : ready ≠ []) :
    phi g (topoStep g cur ready d).2.1 (topoStep g cur ready d).2.2 < phi g d ready := by
  obtain ⟨hmem, herase⟩ := chooseNext_spec g cur ready hne
  have hlen : ((chooseNext g cur ready).2).length + 1 = ready.length := by
    rw [herase, List.length_erase_of_mem hmem]
    have := List.length_pos_of_mem hmem
    omega
  cases hget : graphGet g (chooseNext g cur ready).1 with
  | none =>
    rw [topoStep, hget]
    simp only [phi, length_sortList]
    omega
  | some node =>
    have hkey : (chooseNext g cur ready).1 ∈ g.keys := by
      by_cases hk : (chooseNext g cur ready).1 ∈ g.keys
      · exact hk
      · rw [graphGet, if_neg hk] at hget
        exact absurd hget (by simp)
    have hnode : node = g.nodeOf (chooseNext g cur ready).1 := by
      rw [graphGet, if_pos hkey] at hget
      exact (Option.some.injEq _ _ ▸ hget).symm
    have hps : ∀ p ∈ node.parents, p ∈ spanSet g := by
      intro p hp
      unfold spanSet
      refine Finset.mem_union_right _ (Finset.mem_biUnion.mpr ?_)
      exact ⟨(chooseNext g cur ready).1, hkey, List.mem_toFinset.mpr (hnode ▸ hp)⟩
    have hphil := applyDecrements_philen (spanSet g) node.parents d
      (chooseNext g cur ready).2 hps
    rw [topoStep, hget]
    simp only [phi, length_sortList]
    omega

/-! ## The sequencer invariant -/

/-- Total number of decrements commit `k` has received once the commits
of `order` have been emitted: the number of occurrences of `k` among
their parent lists. -/
def emittedCount (g : CommitGraph) (k : String) (order : List String) : Int :=
  ((order.map (fun c => (((g.nodeOf c).parents.count k : Nat) : Int))).sum)

theorem emittedCount_nil (g : CommitGraph) (k : String) : emittedCount g k [] = 0 := rfl

theorem emittedCount_append (g : CommitGraph) (k : String) (l : List String) (c : String) :
    emittedCount g k (l ++ [c]) = emittedCount g k l + ((g.nodeOf c).parents.count k : Int) := by
  unfold emittedCount
  rw [List.map_append, List.sum_append]
  simp

theorem emittedCount_ge_card (g : CommitGraph) (k : String) :
    ∀ l : List String, l.Nodup →
      ((l.toFinset.filter (fun c => k ∈ (g.nodeOf c).parents)).card : Int) ≤ emittedCount g k l
  | [], _ => by simp [emittedCount]
  | c :: l, hnd => by
    have hcl : c ∉ l := (List.nodup_cons.mp hnd).1
    have ih := emittedCount_ge_card g k l (List.nodup_cons.mp hnd).2
    have hec : emittedCount g k (c :: l) =
        ((g.nodeOf c).parents.count k : Int) + emittedCount g k l := by
      unfold emittedCount
      simp
    rw [hec, List.toFinset_cons, Finset.filter_insert]
    by_cases hkc : k ∈ (g.nodeOf c).parents
    · rw [if_pos hkc]
      have hcnf : c ∉ l.toFinset.filter (fun c => k ∈ (g.nodeOf c).parents) := by
        intro hc
        exact hcl (List.mem_toFinset.mp (Finset.mem_of_mem_filter c hc))
      rw [Finset.card_insert_of_not_mem hcnf]
      have hcount : 1 ≤ ((g.nodeOf c).parents.count k : Int) := by
        have := List.count_pos_iff.mpr hkc
        omega
      push_cast
      omega
    · rw [if_neg hkc]
      have hcount : (0 : Int) ≤ ((g.nodeOf c).parents.count k : Int) := by positivity
      omega

theorem emittedCount_eq_card (g : CommitGraph) (k : String) :
    ∀ l : List String, l.Nodup → (∀ c ∈ l, (g.nodeOf c).parents.Nodup) →
      emittedCount g k l =
        ((l.toFinset.filter (fun c => k ∈ (g.nodeOf c).parents)).card : Int)
  | [], _, _ => by simp [emittedCount]
  | c :: l, hnd, hpnd => by
    have hcl : c ∉ l := (List.nodup_cons.mp hnd).1
    have ih := emittedCount_eq_card g k l (List.nodup_cons.mp hnd).2
      (fun x hx => hpnd x (List.mem_cons_of_mem c hx))
    have hec : emittedCount g k (c :: l) =
        ((g.nodeOf c).parents.count k : Int) + emittedCount g k l := by
      unfold emittedCount
      simp
    rw [hec, ih, List.toFinset_cons, Finset.filter_insert]
    by_cases hkc : k ∈ (g.nodeOf c).parents
    · rw [if_pos hkc]
      have hcnf : c ∉ l.toFinset.filter (fun c => k ∈ (g.nodeOf c).parents) := by
        intro hc
        exact hcl (List.mem_toFinset.mp (Finset.mem_of_mem_filter c hc))
      rw [Finset.card_insert_of_not_mem hcnf]
      have hcount : (g.nodeOf c).parents.count k = 1 :=
        List.count_eq_one_of_mem (hpnd c (List.mem_cons_self c l)) hkc
      rw [hcount]
      push_cast
      ring
    · rw [if_neg hkc]
      have hcount : (g.nodeOf c).parents.count k = 0 := List.count_eq_zero.mpr hkc
      rw [hcount]
      push_cast
      ring

/-- Invariant of the `while next_choices:` loop, for any graph with the
well-formedness properties `build_commit_graph` guarantees. -/
structure TopoInv (g : CommitGraph) (d : String → Int) (ready order : List String) : Prop where
  order_nodup : order.Nodup
  order_keys : ∀ c ∈ order, c ∈ g.keys
  ready_nodup : ready.Nodup
  ready_keys : ∀ c ∈ ready, c ∈ g.keys
  ready_order : ∀ c ∈ ready, c ∉ order
  deg_eq : ∀ k ∈ g.keys, d k = ((g.nodeOf k).children.card : Int) - emittedCount g k order
  deg_nonpos : ∀ k, k ∈ ready ∨ k ∈ order → d k ≤ 0
  deg_cover : ∀ k ∈ g.keys, d k ≤ 0 → k ∈ ready ∨ k ∈ order

theorem applyDecrements_inv (g : CommitGraph) (order : List String) :
    ∀ (ps : List String) (d : String → Int) (r : List String),
      (∀ p ∈ ps, p ∈ g.keys) →
      r.Nodup → (∀ c ∈ r, c ∈ g.keys) → (∀ c ∈ r, c ∉ order) →
      (∀ k, k ∈ r ∨ k ∈ order → d k ≤ 0) →
      (∀ k ∈ g.keys, d k ≤ 0 → k ∈ r ∨ k ∈ order) →
      (∀ k ∈ g.keys, d k = ((g.nodeOf k).children.card : Int) -
        emittedCount g k order + ps.count k) →
      ((applyDecrements ps d r).2.Nodup ∧
        (∀ c ∈ (applyDecrements ps d r).2, c ∈ g.keys) ∧
        (∀ c ∈ (applyDecrements ps d r).2, c ∉ order) ∧
        (∀ k, k ∈ (applyDecrements ps d r).2 ∨ k ∈ order → (applyDecrements ps d r).1 k ≤ 0) ∧
        (∀ k ∈ g.keys, (applyDecrements ps d r).1 k ≤ 0 →
          k ∈ (applyDecrements ps d r).2 ∨ k ∈ order) ∧
        (∀ k ∈ g.keys, (applyDecrements ps d r).1 k =
          ((g.nodeOf k).children.card : Int) - emittedCount g k order))
  | [], d, r, _, hrn, hrk, hro, hnp, hcv, hfm => by
    refine ⟨hrn, hrk, hro, hnp, hcv, ?_⟩
    intro k hk
    have := hfm k hk
    simpa using this
  | p :: ps, d, r, hps, hrn, hrk, hro, hnp, hcv, hfm => by
    rw [applyDecrements]
    have hpk : p ∈ g.keys := hps p (List.mem_cons_self p ps)
    have hfm1 : ∀ k ∈ g.keys, (if k = p then d k - 1 else d k) =
        ((g.nodeOf k).children.card : Int) - emittedCount g k order + ps.count k := by
      intro k hk
      have h0 := hfm k hk
      have hcc : ((p :: ps).count k : Int) = (ps.count k : Int) + (if p = k then 1 else 0) := by
        rw [List.count_cons]
        by_cases hpk' : p = k
        · rw [if_pos hpk', if_pos (by simp [hpk'])]
          push_cast
          ring
        · rw [if_neg hpk', if_neg (by simp [hpk'])]
          push_cast
          ring
      rw [hcc] at h0
      by_cases hkp : k = p
      · rw [if_pos hkp, if_pos hkp.symm] at *
        omega
      · rw [if_neg hkp, if_neg (fun he => hkp he.symm)] at *
        omega
    by_cases hz : d p - 1 = 0
    · rw [if_pos hz]
      have hpnotin : p ∉ r ∧ p ∉ order := by
        constructor
        · intro hpr
          have := hnp p (Or.inl hpr)
          omega
        · intro hpo
          have := hnp p (Or.inr hpo)
          omega
      refine applyDecrements_inv g order ps _ _
        (fun q hq => hps q (List.mem_cons_of_mem p hq)) ?_ ?_ ?_ ?_ ?_ hfm1
      · rw [List.nodup_append]
        exact ⟨hrn, List.nodup_singleton p, by simp [hpnotin.1]⟩
      · intro c hc
        rcases List.mem_append.mp hc with hc1 | hc2
        · exact hrk c hc1
        · rw [List.mem_singleton.mp hc2]
          exact hpk
      · intro c hc
        rcases List.mem_append.mp hc with hc1 | hc2
        · exact hro c hc1
        · rw [List.mem_singleton.mp hc2]
          exact hpnotin.2
      · intro k hk
        by_cases hkp : k = p
        · rw [if_pos hkp, hkp]
          omega
        · rw [if_neg hkp]
          refine hnp k ?_
          rcases hk with hk1 | hk2
          · rcases List.mem_append.mp hk1 with hk3 | hk4
            · exact Or.inl hk3
            · exact absurd (List.mem_singleton.mp hk4) hkp
          · exact Or.inr hk2
      · intro k hk hd
        by_cases hkp : k = p
        · exact Or.inl (List.mem_append_right r (by simp [hkp]))
        · rw [if_neg hkp] at hd
          rcases hcv k hk hd with hk1 | hk2
          · exact Or.inl (List.mem_append_left _ hk1)
          · exact Or.inr hk2
    · rw [if_neg hz]
      refine applyDecrements_inv g order ps _ _
        (fun q hq => hps q (List.mem_cons_of_mem p hq)) hrn hrk hro ?_ ?_ hfm1
      · intro k hk
        by_cases hkp : k = p
        · rw [if_pos hkp]
          have := hnp k hk
          omega
        · rw [if_neg hkp]
          exact hnp k hk
      · intro k hk hd
        by_cases hkp : k = p
        · rw [if_pos hkp] at hd
          refine hcv k hk ?_
          rw [hkp]
          rw [hkp] at hd
          omega
        · rw [if_neg hkp] at hd
          exact hcv k hk hd

theorem topoStep_inv (g : CommitGraph) (hwf : GraphWF g) (cur : Option String)
    (d : String → Int) (ready order : List String) (hinv : TopoInv g d ready order)
    (hne : ready ≠ []) :
    (topoStep g cur ready d).1 ∈ ready ∧
    TopoInv g (topoStep g cur ready d).2.1 (topoStep g cur ready d).2.2
      (order ++ [(topoStep g cur ready d).1]) := by
  obtain ⟨hmem, herase⟩ := chooseNext_spec g cur ready hne
  have hckey : (chooseNext g cur ready).1 ∈ g.keys := hinv.ready_keys _ hmem
  have hcnord : (chooseNext g cur ready).1 ∉ order := hinv.ready_order _ hmem
  have hget : graphGet g (chooseNext g cur ready).1 =
      some (g.nodeOf (chooseNext g cur ready).1) := by
    rw [graphGet, if_pos hckey]
  have hstep : topoStep g cur ready d =
      ((chooseNext g cur ready).1,
        (applyDecrements (g.nodeOf (chooseNext g cur ready).1).parents d
          (ready.erase (chooseNext g cur ready).1)).1,
        sortList (applyDecrements (g.nodeOf (chooseNext g cur ready).1).parents d
          (ready.erase (chooseNext g cur ready).1)).2) := by
    rw [topoStep, hget, herase]
  -- the state fed into the decrement loop
  have hr1 : ∀ c ∈ ready.erase (chooseNext g cur ready).1, c ∈ ready :=
    fun c hc => (List.erase_sublist (chooseNext g cur ready).1 ready).subset hc
  have hr1ne : ∀ c ∈ ready.erase (chooseNext g cur ready).1,
      c ≠ (chooseNext g cur ready).1 := by
    intro c hc
    exact ((hinv.ready_nodup.mem_erase_iff).mp hc).1
  have hbig := applyDecrements_inv g (order ++ [(chooseNext g cur ready).1])
    (g.nodeOf (chooseNext g cur ready).1).parents d
    (ready.erase (chooseNext g cur ready).1)
    (fun p hp => hwf.1 _ hckey p hp)
    (hinv.ready_nodup.erase _)
    (fun c hc => hinv.ready_keys c (hr1 c hc))
    (by
      intro c hc
      rw [List.mem_append]
      rintro (hc1 | hc2)
      · exact hinv.ready_order c (hr1 c hc) hc1
      · exact hr1ne c hc (List.mem_singleton.mp hc2))
    (by
      intro k hk
      refine hinv.deg_nonpos k ?_
      rcases hk with hk1 | hk2
      · exact Or.inl (hr1 k hk1)
      · rcases List.mem_append.mp hk2 with hk3 | hk4
        · exact Or.inr hk3
        · rw [List.mem_singleton.mp hk4]
          exact Or.inl hmem)
    (by
      intro k hk hd
      rcases hinv.deg_cover k hk hd with hk1 | hk2
      · by_cases hkc : k = (chooseNext g cur ready).1
        · exact Or.inr (List.mem_append_right _ (by simp [hkc]))
        · exact Or.inl (hinv.ready_nodup.mem_erase_iff.mpr ⟨hkc, hk1⟩)
      · exact Or.inr (List.mem_append_left _ hk2))
    (by
      intro k hk
      rw [emittedCount_append]
      have := hinv.deg_eq k hk
      omega)
  obtain ⟨hb1, hb2, hb3, hb4, hb5, hb6⟩ := hbig
  rw [hstep]
  refine ⟨hmem, ?_⟩
  exact
    { order_nodup := by
        rw [List.nodup_append]
        exact ⟨hinv.order_nodup, List.nodup_singleton _, by simp [hcnord]⟩
      order_keys := by
        intro c hc
        rcases List.mem_append.mp hc with hc1 | hc2
        · exact hinv.order_keys c hc1
        · rw [List.mem_singleton.mp hc2]
          exact hckey
      ready_nodup := sortList_nodup hb1
      ready_keys := fun c hc => hb2 c (mem_sortList.mp hc)
      ready_order := fun c hc => hb3 c (mem_sortList.mp hc)
      deg_eq := hb6
      deg_nonpos := by
        intro k hk
        refine hb4 k ?_
        rcases hk with hk1 | hk2
        · exact Or.inl (mem_sortList.mp hk1)
        · exact Or.inr hk2
      deg_cover := by
        intro k hk hd
        rcases hb5 k hk hd with hk1 | hk2
        · exact Or.inl (mem_sortList.mpr hk1)
        · exact Or.inr hk2 }

theorem topoLoop_inv (g : CommitGraph) (hwf : GraphWF g) :
    ∀ (fuel : Nat) (d : String → Int) (ready : List String) (cur : Option String)
      (order : List String), TopoInv g d ready order → phi g d ready ≤ fuel →
      ∃ d', TopoInv g d' [] (topoLoop g fuel d ready cur order) := by
  intro fuel
  induction fuel with
  | zero =>
    intro d ready cur order hinv hphi
    have hrlen : ready.length = 0 := by
      unfold phi at hphi
      omega
    have hrnil : ready = [] := List.length_eq_zero.mp hrlen
    subst hrnil
    exact ⟨d, hinv⟩
  | succ n ih =>
    intro d ready cur order hinv hphi
    cases ready with
    | nil => exact ⟨d, hinv⟩
    | cons a t =>
      obtain ⟨hmem, hstep_inv⟩ :=
        topoStep_inv g hwf cur d (a :: t) order hinv (by simp)
      have hphi' : phi g (topoStep g cur (a :: t) d).2.1 (topoStep g cur (a :: t) d).2.2 ≤ n := by
        have := topoStep_phi g cur (a :: t) d (by simp)
        omega
      have hunf : topoLoop g (n + 1) d (a :: t) cur order =
          topoLoop g n (topoStep g cur (a :: t) d).2.1 (topoStep g cur (a :: t) d).2.2
            (some (topoStep g cur (a :: t) d).1)
            (order ++ [(topoStep g cur (a :: t) d).1]) := rfl
      rw [hunf]
      exact ih _ _ _ _ hstep_inv hphi'

theorem topoInit_inv (g : CommitGraph) : TopoInv g (initInDegree g) (initReady g) [] :=
  { order_nodup := List.nodup_nil
    order_keys := fun c hc => absurd hc (List.not_mem_nil c)
    ready_nodup := sortFinset_nodup _
    ready_keys := by
      intro c hc
      have := mem_sortFinset.mp hc
      exact (Finset.mem_filter.mp this).1
    ready_order := fun c _ => List.not_mem_nil c
    deg_eq := by
      intro k hk
      rw [emittedCount_nil, initInDegree, if_pos hk]
      ring
    deg_nonpos := by
      intro k hk
      rcases hk with hk1 | hk2
      · have hm := Finset.mem_filter.mp (mem_sortFinset.mp hk1)
        rw [initInDegree, if_pos hm.1, hm.2]
        simp
      · exact absurd hk2 (List.not_mem_nil k)
    deg_cover := by
      intro k hk hd
      rw [initInDegree, if_pos hk] at hd
      have hc0 : (g.nodeOf k).children.card = 0 := by omega
      exact Or.inl (mem_sortFinset.mpr (Finset.mem_filter.mpr ⟨hk, hc0⟩)) }

/-- With the graph acyclic, the loop cannot stop before emitting every
key: a maximal-rank unemitted commit would still hold a positive counter,
yet all counters of unemitted commits would have been exhausted. -/
theorem topoInv_total (g : CommitGraph) (hwf : GraphWF g) (hac : Acyclic g)
    (d : String → Int) (order : List String) (hinv : TopoInv g d [] order) :
    ∀ k ∈ g.keys, k ∈ order := by
  by_contra hcon
  push_neg at hcon
  obtain ⟨k0, hk0, hk0n⟩ := hcon
  obtain ⟨rank, hrank⟩ := hac
  have hU : (g.keys.filter (fun k => k ∉ order)).Nonempty :=
    ⟨k0, Finset.mem_filter.mpr ⟨hk0, hk0n⟩⟩
  obtain ⟨u, huU, humin⟩ := Finset.exists_min_image _ rank hU
  obtain ⟨huk, huo⟩ := Finset.mem_filter.mp huU
  have hdu : 0 < d u := by
    by_contra hdle
    push_neg at hdle
    rcases hinv.deg_cover u huk hdle with h1 | h2
    · exact absurd h1 (List.not_mem_nil u)
    · exact huo h2
  have hem : emittedCount g u order < ((g.nodeOf u).children.card : Int) := by
    have := hinv.deg_eq u huk
    omega
  have hchild : ∃ c ∈ (g.nodeOf u).children, c ∉ order := by
    by_contra hall
    push_neg at hall
    have hsub : (g.nodeOf u).children ⊆
        order.toFinset.filter (fun c => u ∈ (g.nodeOf c).parents) := by
      intro c hc
      have hc2 := hc
      rw [hwf.2 u huk] at hc2
      obtain ⟨hck, hcp⟩ := Finset.mem_filter.mp hc2
      exact Finset.mem_filter.mpr ⟨List.mem_toFinset.mpr (hall c hc), hcp⟩
    have hcard := Finset.card_le_card hsub
    have hge := emittedCount_ge_card g u order hinv.order_nodup
    omega
  obtain ⟨c, hcc, hco⟩ := hchild
  have hc2 := hcc
  rw [hwf.2 u huk] at hc2
  obtain ⟨hck, hcp⟩ := Finset.mem_filter.mp hc2
  have hrankc : rank c < rank u := hrank c hck u hcp
  have hcU : c ∈ g.keys.filter (fun k => k ∉ order) :=
    Finset.mem_filter.mpr ⟨hck, hco⟩
  have := humin c hcU
  omega

theorem topo_sort_inv_final (g : CommitGraph) (hwf : GraphWF g) (hs : List String) :
    ∃ d', TopoInv g d' [] (topo_sort g hs) := by
  unfold topo_sort
  exact topoLoop_inv g hwf _ _ _ _ _ (topoInit_inv g) (le_refl _)

/-! ## Position invariant: all children are emitted before their parent -/

/-- Stronger sequencer invariant, sound when no parent list contains
duplicates: every ready commit has all its children already emitted, and
every emitted commit had all its children emitted at strictly earlier
positions. -/
structure TopoInvB (g : CommitGraph) (ready order : List String) : Prop where
  childs_ready : ∀ c ∈ ready, (g.nodeOf c).children ⊆ order.toFinset
  childs_pos : ∀ (i : Nat) (hi : i < order.length),
    (g.nodeOf (order.get ⟨i, hi⟩)).children ⊆ (order.take i).toFinset

theorem applyDecrements_childs (g : CommitGraph) (hwf : GraphWF g) (hnd : NoDupParents g)
    (order : List String) (hond : order.Nodup) (hok : ∀ c ∈ order, c ∈ g.keys) :
    ∀ (ps : List String) (d : String → Int) (r : List String),
      (∀ p ∈ ps, p ∈ g.keys) →
      (∀ k ∈ g.keys, d k = ((g.nodeOf k).children.card : Int) -
        emittedCount g k order + ps.count k) →
      (∀ c ∈ r, (g.nodeOf c).children ⊆ order.toFinset) →
      ∀ c ∈ (applyDecrements ps d r).2, (g.nodeOf c).children ⊆ order.toFinset
  | [], _, _, _, _, hr => hr
  | p :: ps, d, r, hps, hfm, hr => by
    rw [applyDecrements]
    have hpk : p ∈ g.keys := hps p (List.mem_cons_self p ps)
    have hfm1 : ∀ k ∈ g.keys, (if k = p then d k - 1 else d k) =
        ((g.nodeOf k).children.card : Int) - emittedCount g k order + ps.count k := by
      intro k hk
      have h0 := hfm k hk
      have hcc : ((p :: ps).count k : Int) = (ps.count k : Int) + (if p = k then 1 else 0) := by
        rw [List.count_cons]
        by_cases hpk' : p = k
        · rw [if_pos hpk', if_pos (by simp [hpk'])]
          push_cast
          ring
        · rw [if_neg hpk', if_neg (by simp [hpk'])]
          push_cast
          ring
      rw [hcc] at h0
      by_cases hkp : k = p
      · rw [if_pos hkp, if_pos hkp.symm] at *
        omega
      · rw [if_neg hkp, if_neg (fun he => hkp he.symm)] at *
        omega
    by_cases hz : d p - 1 = 0
    · rw [if_pos hz]
      refine applyDecrements_childs g hwf hnd order hond hok ps _ _
        (fun q hq => hps q (List.mem_cons_of_mem p hq)) hfm1 ?_
      intro c hc
      rcases List.mem_append.mp hc with hc1 | hc2
      · exact hr c hc1
      · rw [List.mem_singleton.mp hc2]
        -- the counter of `p` just reached 0: all its children are emitted
        have hfp := hfm p hpk
        have hcnt : ((p :: ps).count p : Int) = (ps.count p : Int) + 1 := by
          rw [List.count_cons_self]
          push_cast
          ring
        rw [hcnt] at hfp
        have hcard : ((g.nodeOf p).children.card : Int) ≤ emittedCount g p order := by
          have hnn : (0 : Int) ≤ (ps.count p : Int) := by positivity
          omega
        have hEm := emittedCount_eq_card g p order hond (fun c hc => hnd c (hok c hc))
        have hsubF : order.toFinset.filter (fun c => p ∈ (g.nodeOf c).parents) ⊆
            (g.nodeOf p).children := by
          intro c hcF
          obtain ⟨hcT, hcP⟩ := Finset.mem_filter.mp hcF
          rw [hwf.2 p hpk]
          exact Finset.mem_filter.mpr ⟨hok c (List.mem_toFinset.mp hcT), hcP⟩
        have hcardle : (g.nodeOf p).children.card ≤
            (order.toFinset.filter (fun c => p ∈ (g.nodeOf c).parents)).card := by
          omega
        have hEq := Finset.eq_of_subset_of_card_le hsubF hcardle
        rw [← hEq]
        exact Finset.filter_subset _ _
    · rw [if_neg hz]
      exact applyDecrements_childs g hwf hnd order hond hok ps _ r
        (fun q hq => hps q (List.mem_cons_of_mem p hq)) hfm1 hr

theorem topoStepB_inv (g : CommitGraph) (hwf : GraphWF g) (hnd : NoDupParents g)
    (cur : Option String) (d : String → Int) (ready order : List String)
    (hinv : TopoInv g d ready order) (hinvB : TopoInvB g ready order) (hne : ready ≠ []) :
    TopoInvB g (topoStep g cur ready d).2.2 (order ++ [(topoStep g cur ready d).1]) := by
  obtain ⟨hmem, herase⟩ := chooseNext_spec g cur ready hne
  have hckey : (chooseNext g cur ready).1 ∈ g.keys := hinv.ready_keys _ hmem
  have hcnord : (chooseNext g cur ready).1 ∉ order := hinv.ready_order _ hmem
  have hget : graphGet g (chooseNext g cur ready).1 =
      some (g.nodeOf (chooseNext g cur ready).1) := by
    rw [graphGet, if_pos hckey]
  have hstep : topoStep g cur ready d =
      ((chooseNext g cur ready).1,
        (applyDecrements (g.nodeOf (chooseNext g cur ready).1).parents d
          (ready.erase (chooseNext g cur ready).1)).1,
        sortList (applyDecrements (g.nodeOf (chooseNext g cur ready).1).parents d
          (ready.erase (chooseNext g cur ready).1)).2) := by
    rw [topoStep, hget, herase]
  have hr1 : ∀ c ∈ ready.erase (chooseNext g cur ready).1, c ∈ ready :=
    fun c hc => (List.erase_sublist (chooseNext g cur ready).1 ready).subset hc
  have hond' : (order ++ [(chooseNext g cur ready).1]).Nodup := by
    rw [List.nodup_append]
    exact ⟨hinv.order_nodup, List.nodup_singleton _, by simp [hcnord]⟩
  have hok' : ∀ c ∈ order ++ [(chooseNext g cur ready).1], c ∈ g.keys := by
    intro c hc
    rcases List.mem_append.mp hc with hc1 | hc2
    · exact hinv.order_keys c hc1
    · rw [List.mem_singleton.mp hc2]
      exact hckey
  have hmonoT : order.toFinset ⊆ (order ++ [(chooseNext g cur ready).1]).toFinset := by
    intro a ha
    rw [List.toFinset_append]
    exact Finset.mem_union_left _ ha
  have hchl := applyDecrements_childs g hwf hnd (order ++ [(chooseNext g cur ready).1])
    hond' hok' (g.nodeOf (chooseNext g cur ready).1).parents d
    (ready.erase (chooseNext g cur ready).1)
    (fun p hp => hwf.1 _ hckey p hp)
    (by
      intro k hk
      rw [emittedCount_append]
      have := hinv.deg_eq k hk
      omega)
    (fun c hc => Finset.Subset.trans (hinvB.childs_ready c (hr1 c hc)) hmonoT)
  rw [hstep]
  refine
    { childs_ready := ?_
      childs_pos := ?_ }
  · intro c hc
    exact hchl c (mem_sortList.mp hc)
  · intro i hi
    rw [List.length_append, List.length_singleton] at hi
    by_cases hio : i < order.length
    · have hget' : (order ++ [(chooseNext g cur ready).1]).get
          ⟨i, by rw [List.length_append, List.length_singleton]; omega⟩ =
          order.get ⟨i, hio⟩ := by
        rw [List.get_eq_getElem, List.get_eq_getElem]
        exact List.getElem_append_left hio
      have htake : (order ++ [(chooseNext g cur ready).1]).take i = order.take i := by
        rw [List.take_append_eq_append_take]
        have : i - order.length = 0 := by omega
        rw [this]
        simp
      rw [hget', htake]
      exact Finset.Subset.trans (hinvB.childs_pos i hio) (by
        intro a ha
        exact ha)
    · have hieq : i = order.length := by omega
      subst hieq
      have hget' : (order ++ [(chooseNext g cur ready).1]).get
          ⟨order.length, by rw [List.length_append, List.length_singleton]; omega⟩ =
          (chooseNext g cur ready).1 := by
        rw [List.get_eq_getElem]
        rw [List.getElem_append_right (le_refl order.length)]
        simp
      have htake : (order ++ [(chooseNext g cur ready).1]).take order.length = order := by
        exact List.take_left order _
      rw [hget', htake]
      exact hinvB.childs_ready _ hmem

theorem topoLoopB_inv (g : CommitGraph) (hwf : GraphWF g) (hnd : NoDupParents g) :
    ∀ (fuel : Nat) (d : String → Int) (ready : List String) (cur : Option String)
      (order : List String), TopoInv g d ready order → TopoInvB g ready order →
      phi g d ready ≤ fuel →
      TopoInvB g [] (topoLoop g fuel d ready cur order) := by
  intro fuel
  induction fuel with
  | zero =>
    intro d ready cur order hinv hinvB hphi
    have hrlen : ready.length = 0 := by
      unfold phi at hphi
      omega
    have hrnil : ready = [] := List.length_eq_zero.mp hrlen
    subst hrnil
    exact hinvB
  | succ n ih =>
    intro d ready cur order hinv hinvB hphi
    cases ready with
    | nil => exact hinvB
    | cons a t =>
      obtain ⟨hmem, hstep_inv⟩ :=
        topoStep_inv g hwf cur d (a :: t) order hinv (by simp)
      have hstepB := topoStepB_inv g hwf hnd cur d (a :: t) order hinv hinvB (by simp)
      have hphi' : phi g (topoStep g cur (a :: t) d).2.1 (topoStep g cur (a :: t) d).2.2 ≤ n := by
        have := topoStep_phi g cur (a :: t) d (by simp)
        omega
      have hunf : topoLoop g (n + 1) d (a :: t) cur order =
          topoLoop g n (topoStep g cur (a :: t) d).2.1 (topoStep g cur (a :: t) d).2.2
            (some (topoStep g cur (a :: t) d).1)
            (order ++ [(topoStep g cur (a :: t) d).1]) := rfl
      rw [hunf]
      exact ih _ _ _ _ hstep_inv hstepB hphi'

theorem topoInitB_inv (g : CommitGraph) : TopoInvB g (initReady g) [] :=
  { childs_ready := by
      intro c hc
      have hm := Finset.mem_filter.mp (mem_sortFinset.mp hc)
      rw [Finset.card_eq_zero.mp hm.2]
      intro a ha
      exact absurd ha (Finset.not_mem_empty a)
    childs_pos := by
      intro i hi
      simp at hi }

theorem indexOf_lt_of_mem_take :
    ∀ (l : List String) (j : Nat) (x : String), x ∈ l.take j → l.indexOf x < j
  | _, 0, x => by simp
  | [], j + 1, x => by simp
  | a :: l, j + 1, x => by
    intro hx
    rw [List.take_succ_cons] at hx
    by_cases hxa : x = a
    · rw [hxa, List.indexOf_cons_self]
      omega
    · have hx' : x ∈ l.take j := by
        rcases List.mem_cons.mp hx with h1 | h2
        · exact absurd h1 hxa
        · exact h2
      have := indexOf_lt_of_mem_take l j x hx'
      rw [List.indexOf_cons_ne l (fun he => hxa he.symm)]
      omega

/-! ## Renderer: positional description of the output -/

/-- The sticky-end block as the spec describes it, with the condition the
code actually implements: three extra lines appear exactly when `c` is a
key of the graph, its parent list is non-empty, and `next` is not one of
its parents. -/
def stickySpec (g : CommitGraph) (c next : String) : List String :=
  if c ∈ g.keys ∧ (g.nodeOf c).parents ≠ [] ∧ next ∉ (g.nodeOf c).parents then
    [String.intercalate " " (sortList (g.nodeOf c).parents) ++ "=", "",
      if next ∈ g.keys ∧ (g.nodeOf next).children ≠ ∅ then
        "=" ++ String.intercalate " " (sortFinset (g.nodeOf next).children)
      else "="]
  else []

/-- Position-indexed description of the renderer's output: at every
position the commit's own line, followed (at non-final positions) by the
sticky block between it and its successor. -/
def renderSpec (g : CommitGraph) (h2b : String → Option (List String))
    (t : List String) : List String :=
  ((List.range t.length).map (fun i =>
    commitLine h2b (t.getD i "") ::
      (if i + 1 < t.length then stickySpec g (t.getD i "") (t.getD (i + 1) "") else []))).flatten

theorem stickyLines_eq_spec (g : CommitGraph) (c next : String) :
    stickyLines g c next = stickySpec g c next := by
  by_cases hc : c ∈ g.keys
  · have hgc : graphGet g c = some (g.nodeOf c) := by rw [graphGet, if_pos hc]
    by_cases hcond : (g.nodeOf c).parents ≠ [] ∧ next ∉ (g.nodeOf c).parents
    · by_cases hn : next ∈ g.keys
      · have hgn : graphGet g next = some (g.nodeOf next) := by rw [graphGet, if_pos hn]
        by_cases hch : (g.nodeOf next).children ≠ ∅
        · simp only [stickyLines, stickySpec, hgc, hgn, if_pos hcond,
            if_pos (And.intro hc hcond), if_pos hch, if_pos (And.intro hn hch)]
        · simp only [stickyLines, stickySpec, hgc, hgn, if_pos hcond,
            if_pos (And.intro hc hcond), if_neg hch,
            if_neg (fun hq : next ∈ g.keys ∧ (g.nodeOf next).children ≠ ∅ => hch hq.2)]
      · have hgn : graphGet g next = none := by rw [graphGet, if_neg hn]
        simp only [stickyLines, stickySpec, hgc, hgn, if_pos hcond,
          if_pos (And.intro hc hcond),
          if_neg (fun hq : next ∈ g.keys ∧ (g.nodeOf next).children ≠ ∅ => hn hq.1)]
    · simp only [stickyLines, stickySpec, hgc, if_neg hcond,
        if_neg (fun hq : c ∈ g.keys ∧ (g.nodeOf c).parents ≠ [] ∧
          next ∉ (g.nodeOf c).parents => hcond ⟨hq.2.1, hq.2.2⟩)]
  · have hgc : graphGet g c = none := by rw [graphGet, if_neg hc]
    simp only [stickyLines, stickySpec, hgc,
      if_neg (fun hq : c ∈ g.keys ∧ (g.nodeOf c).parents ≠ [] ∧
        next ∉ (g.nodeOf c).parents => hc hq.1)]

theorem renderSpec_cons_cons (g : CommitGraph) (h2b : String → Option (List String))
    (c next : String) (rest : List String) :
    renderSpec g h2b (c :: next :: rest) =
      (commitLine h2b c :: stickySpec g c next) ++ renderSpec g h2b (next :: rest) := by
  unfold renderSpec
  rw [show (c :: next :: rest).length = (next :: rest).length + 1 from rfl,
    List.range_succ_eq_map, List.map_cons, List.flatten_cons]
  have hhead : (commitLine h2b ((c :: next :: rest).getD 0 "") ::
      (if 0 + 1 < (next :: rest).length + 1 then
        stickySpec g ((c :: next :: rest).getD 0 "") ((c :: next :: rest).getD (0 + 1) "")
      else [])) = commitLine h2b c :: stickySpec g c next := by
    rw [if_pos (by simp)]
    rfl
  rw [hhead]
  congr 1
  rw [List.map_map]
  refine congrArg List.flatten ?_
  apply List.map_congr_left
  intro i hi
  rw [List.mem_range] at hi
  have hg1 : (c :: next :: rest).getD (Nat.succ i) "" = (next :: rest).getD i "" := rfl
  have hg2 : (c :: next :: rest).getD (Nat.succ i + 1) "" = (next :: rest).getD (i + 1) "" := rfl
  simp only [Function.comp_apply, hg1, hg2]
  by_cases hcond : i + 1 < (next :: rest).length
  · rw [if_pos (by simp only [List.length_cons] at hcond ⊢; omega), if_pos hcond]
  · rw [if_neg (by simp only [List.length_cons] at hcond ⊢; omega), if_neg hcond]

theorem ordered_print_eq_renderSpec (g : CommitGraph) (h2b : String → Option (List String)) :
    ∀ t : List String, ordered_print g t h2b = renderSpec g h2b t
  | [] => by simp [ordered_print, renderSpec]
  | [c] => by
    rw [ordered_print]
    unfold renderSpec
    rw [show List.range [c].length = [0] from rfl]
    simp [commitLine]
  | c :: next :: rest => by
    rw [ordered_print, renderSpec_cons_cons, stickyLines_eq_spec,
      ordered_print_eq_renderSpec g h2b (next :: rest)]

/-! ## Branch-annotation table: enumeration-order independence -/

theorem head_to_branches_eq_filter (x : String) :
    ∀ bs : List (String × String),
      head_to_branches bs x =
        if (bs.filter (fun p => decide (p.2 = x))).map Prod.fst = [] then none
        else some ((bs.filter (fun p => decide (p.2 = x))).map Prod.fst)
  | [] => by simp [head_to_branches]
  | (b, c) :: rest => by
    simp only [head_to_branches]
    by_cases hx : x = c
    · rw [if_pos hx]
      have hkeep : ((b, c) :: rest).filter (fun p => decide (p.2 = x)) =
          (b, c) :: rest.filter (fun p => decide (p.2 = x)) := by
        rw [List.filter_cons]
        rw [if_pos (by simp [hx.symm])]
      rw [hkeep, List.map_cons]
      rw [if_neg (by simp)]
      have ih := head_to_branches_eq_filter x rest
      by_cases hrest : (rest.filter (fun p => decide (p.2 = x))).map Prod.fst = []
      · rw [hx] at ih ⊢
        rw [hx] at hrest
        rw [ih, if_pos hrest, hrest]
        rfl
      · rw [hx] at ih ⊢
        rw [hx] at hrest
        rw [ih, if_neg hrest]
        rfl
    · rw [if_neg hx]
      have hdrop : ((b, c) :: rest).filter (fun p => decide (p.2 = x)) =
          rest.filter (fun p => decide (p.2 = x)) := by
        rw [List.filter_cons]
        rw [if_neg (by
          simp only [decide_eq_true_eq]
          exact fun he => hx he.symm)]
      rw [hdrop]
      exact head_to_branches_eq_filter x rest

theorem head_to_branches_perm (bs1 bs2 : List (String × String)) (hperm : bs1.Perm bs2)
    (x : String) :
    Option.map sortList (head_to_branches bs1 x) =
      Option.map sortList (head_to_branches bs2 x) := by
  rw [head_to_branches_eq_filter x bs1, head_to_branches_eq_filter x bs2]
  have hp : ((bs1.filter (fun p => decide (p.2 = x))).map Prod.fst).Perm
      ((bs2.filter (fun p => decide (p.2 = x))).map Prod.fst) :=
    (hperm.filter _).map _
  by_cases h1 : (bs1.filter (fun p => decide (p.2 = x))).map Prod.fst = []
  · have h2 : (bs2.filter (fun p => decide (p.2 = x))).map Prod.fst = [] := by
      have := hp.length_eq
      rw [h1] at this
      exact List.length_eq_zero.mp this.symm
    rw [if_pos h1, if_pos h2]
  · have h2 : ¬ (bs2.filter (fun p => decide (p.2 = x))).map Prod.fst = [] := by
      intro hc
      have := hp.length_eq
      rw [hc] at this
      exact h1 (List.length_eq_zero.mp this)
    rw [if_neg h1, if_neg h2]
    simp only [Option.map_some']
    rw [sortList_eq_of_perm hp]

theorem commitLine_congr (h2b1 h2b2 : String → Option (List String))
    (hc : ∀ x, Option.map sortList (h2b1 x) = Option.map sortList (h2b2 x)) (c : String) :
    commitLine h2b1 c = commitLine h2b2 c := by
  have h := hc c
  unfold commitLine
  cases h1 : h2b1 c with
  | none =>
    cases h2 : h2b2 c with
    | none => rfl
    | some l2 =>
      rw [h1, h2] at h
      exact Option.noConfusion h
  | some l1 =>
    cases h2 : h2b2 c with
    | none =>
      rw [h1, h2] at h
      exact Option.noConfusion h
    | some l2 =>
      rw [h1, h2] at h
      simp only [Option.map_some', Option.some.injEq] at h
      show c ++ " " ++ String.intercalate " " (sortList l1) =
        c ++ " " ++ String.intercalate " " (sortList l2)
      rw [h]

theorem ordered_print_congr_h2b (g : CommitGraph) (h2b1 h2b2 : String → Option (List String))
    (hc : ∀ x, Option.map sortList (h2b1 x) = Option.map sortList (h2b2 x)) :
    ∀ t : List String, ordered_print g t h2b1 = ordered_print g t h2b2
  | [] => rfl
  | [c] => by
    rw [ordered_print, ordered_print, commitLine_congr h2b1 h2b2 hc c]
  | c :: next :: rest => by
    rw [ordered_print, ordered_print, commitLine_congr h2b1 h2b2 hc c,
      ordered_print_congr_h2b g h2b1 h2b2 hc (next :: rest)]

/-! ## Sorted ready lists have their minimum at the head -/

theorem sorted_head_min (l : List String) (hs : List.Sorted dataLe l) (hne : l ≠ []) :
    l.headD "" ∈ l ∧ ∀ z ∈ l, l.headD "" ≤ z := by
  cases l with
  | nil => exact absurd rfl hne
  | cons a t =>
    refine ⟨List.mem_cons_self a t, ?_⟩
    intro z hz
    rcases List.mem_cons.mp hz with rfl | hzt
    · exact le_refl _
    · exact dataLe_iff_le.mp (List.rel_of_sorted_cons hs z hzt)

/-! ## Concrete fixtures used by witnesses and counterexamples -/

/-- Merge fixture: `m` is a merge commit with parent list `["b", "a"]`
(first parent `b`, although `a` sorts first). -/
def mergeStore : List (String × List String) := [("m", ["b", "a"]), ("b", []), ("a", [])]

def mergeBranches : List (String × String) := [("main", "m")]

def mergeRank : String → Nat := fun s => if s = "m" then 0 else 1

/-- Fixture in which commit `a` lists the same parent `p` twice. -/
def dupStore : List (String × List String) := [("a", ["p", "p"]), ("b", ["p"]), ("p", [])]

def dupBranches : List (String × String) := [("x", "a"), ("y", "b")]

def dupRank : String → Nat := fun s => if s = "p" then 1 else 0

/-- Fixture of two unrelated parentless commits. -/
def rootsStore : List (String × List String) := [("a", []), ("b", [])]

def rootsBranches : List (String × String) := [("x", "a"), ("y", "b")]

/-- Fixture whose head commit references an absent object `x`. -/
def partialStore : List (String × List String) := [("h", ["x"])]

def partialBranches : List (String × String) := [("m", "h")]

def partialRank : String → Nat := fun s => if s = "x" then 1 else 0

/-! ## The claims -/

/-- Claim C1: for every acyclic commit graph produced by
`build_commit_graph` from a non-empty branch list, the list returned by
`topo_sort` contains every commit identifier that is a key of the graph
exactly once (and nothing else). -/
theorem claim_topo_sort_totality (store : List (String × List String))
    (bs : List (String × String)) (g : CommitGraph) (hs : List String)
    (hg : g = build_commit_graph store bs) (hne : bs ≠ []) (hac : Acyclic g) :
    ∀ k : String, (topo_sort g hs).count k = if k ∈ g.keys then 1 else 0 := by
  subst hg
  obtain ⟨d', hinv⟩ := topo_sort_inv_final (build_commit_graph store bs) (build_wf store bs) hs
  intro k
  by_cases hk : k ∈ (build_commit_graph store bs).keys
  · rw [if_pos hk]
    have hmem := topoInv_total _ (build_wf store bs) hac d' _ hinv k hk
    exact List.count_eq_one_of_mem hinv.order_nodup hmem
  · rw [if_neg hk]
    exact List.count_eq_zero.mpr (fun hmem => hk (hinv.order_keys k hmem))

/-- Witness for C1 on the merge fixture. -/
theorem claim_topo_sort_totality_witness :
    mergeBranches ≠ [] ∧ Acyclic (build_commit_graph mergeStore mergeBranches) ∧
    ∀ k : String, (topo_sort (build_commit_graph mergeStore mergeBranches) ["m"]).count k =
      if k ∈ (build_commit_graph mergeStore mergeBranches).keys then 1 else 0 :=
  ⟨by decide, ⟨mergeRank, by decide⟩,
    claim_topo_sort_totality mergeStore mergeBranches _ ["m"] rfl (by decide)
      ⟨mergeRank, by decide⟩⟩

/-- Claim C2, counterexample to the claim as stated: in the acyclic graph
built from `dupStore`, commit `a` lists parent `p` twice; `p`'s counter
reaches zero after `a` alone is emitted, so `p` is emitted before its
child `b` — the parent does not appear strictly after every child. -/
theorem claim_ancestry_counterexample :
    Acyclic (build_commit_graph dupStore dupBranches) ∧
    "b" ∈ (build_commit_graph dupStore dupBranches).keys ∧
    "p" ∈ ((build_commit_graph dupStore dupBranches).nodeOf "b").parents ∧
    topo_sort (build_commit_graph dupStore dupBranches) ["a", "b"] = ["a", "p", "b"] ∧
    ¬ ((topo_sort (build_commit_graph dupStore dupBranches) ["a", "b"]).indexOf "b" <
        (topo_sort (build_commit_graph dupStore dupBranches) ["a", "b"]).indexOf "p") :=
  ⟨⟨dupRank, by decide⟩, by decide, by decide, by decide, by decide⟩

/-- Claim C2 as amended: additionally assuming that no commit's parent
list contains a duplicate identifier, whenever `y` occurs in `x`'s parent
list, `y` appears at a strictly later position of `topo_sort`'s output
than `x`. -/
theorem claim_ancestry_order (store : List (String × List String))
    (bs : List (String × String)) (g : CommitGraph) (hs : List String) (x y : String)
    (hg : g = build_commit_graph store bs) (hac : Acyclic g) (hnd : NoDupParents g)
    (hx : x ∈ g.keys) (hy : y ∈ (g.nodeOf x).parents) :
    (topo_sort g hs).indexOf x < (topo_sort g hs).indexOf y := by
  subst hg
  have hwf := build_wf store bs
  obtain ⟨d', hinv⟩ := topo_sort_inv_final (build_commit_graph store bs) hwf hs
  have hinvB : TopoInvB (build_commit_graph store bs) []
      (topo_sort (build_commit_graph store bs) hs) := by
    unfold topo_sort
    exact topoLoopB_inv _ hwf hnd _ _ _ _ _ (topoInit_inv _) (topoInitB_inv _) (le_refl _)
  have hyk : y ∈ (build_commit_graph store bs).keys := hwf.1 x hx y hy
  have hyo : y ∈ topo_sort (build_commit_graph store bs) hs :=
    topoInv_total _ hwf hac d' _ hinv y hyk
  have hj : (topo_sort (build_commit_graph store bs) hs).indexOf y <
      (topo_sort (build_commit_graph store bs) hs).length := List.indexOf_lt_length.mpr hyo
  have hgety : (topo_sort (build_commit_graph store bs) hs).get ⟨_, hj⟩ = y := by
    rw [List.get_eq_getElem]
    exact List.getElem_indexOf hj
  have hsub := hinvB.childs_pos _ hj
  rw [hgety] at hsub
  have hxc : x ∈ ((build_commit_graph store bs).nodeOf y).children := by
    rw [hwf.2 y hyk]
    exact Finset.mem_filter.mpr ⟨hx, hy⟩
  have hxt : x ∈ (topo_sort (build_commit_graph store bs) hs).take
      ((topo_sort (build_commit_graph store bs) hs).indexOf y) :=
    List.mem_toFinset.mp (hsub hxc)
  exact indexOf_lt_of_mem_take _ _ _ hxt

/-- Witness for the amended C2 on the merge fixture: parent `b` of `m`
appears after `m`. -/
theorem claim_ancestry_order_witness :
    Acyclic (build_commit_graph mergeStore mergeBranches) ∧
    NoDupParents (build_commit_graph mergeStore mergeBranches) ∧
    "m" ∈ (build_commit_graph mergeStore mergeBranches).keys ∧
    "b" ∈ ((build_commit_graph mergeStore mergeBranches).nodeOf "m").parents ∧
    (topo_sort (build_commit_graph mergeStore mergeBranches) ["m"]).indexOf "m" <
      (topo_sort (build_commit_graph mergeStore mergeBranches) ["m"]).indexOf "b" :=
  ⟨⟨mergeRank, by decide⟩, by unfold NoDupParents; decide, by decide, by decide,
    claim_ancestry_order mergeStore mergeBranches _ ["m"] "m" "b" rfl
      ⟨mergeRank, by decide⟩ (by unfold NoDupParents; decide) (by decide) (by decide)⟩

/-- Claim C3: at a selection step, if the previously emitted commit's
first parent is in the (sorted) ready list it is selected next, otherwise
the smallest ready identifier is selected; in particular on the merge
fixture the first parent `b` of `m` is emitted immediately after `m` even
though `a` sorts before `b`. -/
theorem claim_selection_rule (g : CommitGraph) (cur : Option String) (ready : List String)
    (hsort : List.Sorted dataLe ready) (hne : ready ≠ []) :
    (∀ c node p ps', cur = some c → graphGet g c = some node →
      node.parents = p :: ps' → p ∈ ready → (chooseNext g cur ready).1 = p) ∧
    ((¬ ∃ c node p ps', cur = some c ∧ graphGet g c = some node ∧
        node.parents = p :: ps' ∧ p ∈ ready) →
      (chooseNext g cur ready).1 ∈ ready ∧ ∀ z ∈ ready, (chooseNext g cur ready).1 ≤ z) ∧
    topo_sort (build_commit_graph mergeStore mergeBranches) ["m"] = ["m", "b", "a"] := by
  refine ⟨?_, ?_, by decide⟩
  · intro c node p ps' hcur hget hpar hp
    subst hcur
    simp only [chooseNext, hget, hpar, if_pos hp]
  · intro hno
    have hhd := sorted_head_min ready hsort hne
    have hconv : ready.headD "" ∈ ready ∧ ∀ z ∈ ready, ready.headD "" ≤ z := hhd
    cases cur with
    | none => exact hconv
    | some c =>
      cases hget : graphGet g c with
      | none =>
        simp only [chooseNext, hget]
        exact hconv
      | some node =>
        cases hpar : node.parents with
        | nil =>
          simp only [chooseNext, hget, hpar]
          exact hconv
        | cons p ps' =>
          have hp : p ∉ ready := fun hpr => hno ⟨c, node, p, ps', rfl, hget, hpar, hpr⟩
          simp only [chooseNext, hget, hpar, if_neg hp]
          exact hconv

/-- Witness for C3: at the state after emitting `m` with ready list
`["a", "b"]`, the first parent `b` of `m` is chosen. -/
theorem claim_selection_rule_witness :
    List.Sorted dataLe ["a", "b"] ∧ (["a", "b"] : List String) ≠ [] ∧
    ((∀ c node p ps', (some "m" : Option String) = some c →
      graphGet (build_commit_graph mergeStore mergeBranches) c = some node →
      node.parents = p :: ps' → p ∈ ["a", "b"] →
      (chooseNext (build_commit_graph mergeStore mergeBranches) (some "m") ["a", "b"]).1 = p) ∧
    ((¬ ∃ c node p ps', (some "m" : Option String) = some c ∧
        graphGet (build_commit_graph mergeStore mergeBranches) c = some node ∧
        node.parents = p :: ps' ∧ p ∈ ["a", "b"]) →
      (chooseNext (build_commit_graph mergeStore mergeBranches) (some "m") ["a", "b"]).1 ∈
          ["a", "b"] ∧
        ∀ z ∈ ["a", "b"],
          (chooseNext (build_commit_graph mergeStore mergeBranches) (some "m") ["a", "b"]).1 ≤ z) ∧
    topo_sort (build_commit_graph mergeStore mergeBranches) ["m"] = ["m", "b", "a"]) :=
  ⟨by decide, by decide,
    claim_selection_rule (build_commit_graph mergeStore mergeBranches) (some "m") ["a", "b"]
      (by decide) (by decide)⟩

/-- Claim C4, counterexample to the claim as stated: in the graph of two
unrelated parentless commits, `b` is not a parent of `a`, yet
`ordered_print` emits no extra lines between the two commit lines,
because the code additionally requires `a`'s parent list to be
non-empty. -/
theorem claim_sticky_counterexample :
    topo_sort (build_commit_graph rootsStore rootsBranches) ["a", "b"] = ["a", "b"] ∧
    "b" ∉ ((build_commit_graph rootsStore rootsBranches).nodeOf "a").parents ∧
    ordered_print (build_commit_graph rootsStore rootsBranches) ["a", "b"] (fun _ => none) =
      ["a", "b"] ∧
    ordered_print (build_commit_graph rootsStore rootsBranches) ["a", "b"] (fun _ => none) ≠
      ["a", "=", "", "=", "b"] :=
  ⟨by decide, by decide, by decide, by decide⟩

/-- Claim C4 as amended: the rendered output is, position by position,
the commit's own line followed — exactly when the commit is in the graph,
its parent list is non-empty, and the next commit is not one of its
parents — by the three sticky-end lines (sorted parents then `=`, a blank
line, and `=` then the sorted children of the next commit or a bare `=`);
when the next commit is one of its parents (or the parent list is empty),
no extra lines are emitted. -/
theorem claim_sticky_blocks (g : CommitGraph) (h2b : String → Option (List String))
    (t : List String) : ordered_print g t h2b = renderSpec g h2b t :=
  ordered_print_eq_renderSpec g h2b t

/-- Claim C5 (code bug): the gate of `topo_order_commits` checks only the
working directory itself, so the process exits 1 even when a `.git`
directory is discoverable in an ancestor (here `/repo` while running in
`/repo/sub`), although `get_git_directory` itself would find it; with
`.git` in the working directory itself the pipeline proceeds and
succeeds. -/
theorem claim_exit_gate :
    topo_order_commits (fun p => p == ["repo"]) ["sub", "repo"] [] (fun _ => []) =
      Except.error "Not inside a Git repository" ∧
    get_git_directory (fun p => p == ["repo"]) ["sub", "repo"] = Except.ok ["repo"] ∧
    topo_order_commits (fun p => p == ["repo"]) ["repo"] [("r", [])]
      (fun _ => [("main", "r")]) = Except.ok ["r main"] :=
  ⟨rfl, rfl, rfl⟩

/-- Claim C6: when a referenced commit's object is absent from the store,
the build loop still completes (no exception), records that commit with
no parents, and `topo_sort` still includes it in its output. -/
theorem claim_missing_object (store : List (String × List String))
    (bs : List (String × String)) (g : CommitGraph) (hs : List String) (x : String)
    (hg : g = build_commit_graph store bs) (hx : x ∈ g.keys)
    (hmiss : storeLookup store x = none) (hac : Acyclic g) :
    (buildLoop store (buildFuel store bs) ∅ ((bs.map Prod.snd).reverse) ⟨∅, freshNode⟩).isSome ∧
    (g.nodeOf x).parents = [] ∧ x ∈ topo_sort g hs := by
  subst hg
  obtain ⟨hinv, _⟩ := build_inv store bs
  obtain ⟨v', heq, _, _⟩ := build_final store bs
  refine ⟨by rw [heq]; rfl, ?_, ?_⟩
  · rw [hinv.par_vis x hx, storeParents, hmiss]
    rfl
  · obtain ⟨d', hinvT⟩ := topo_sort_inv_final _ (build_wf store bs) hs
    exact topoInv_total _ (build_wf store bs) hac d' _ hinvT x hx

/-- Witness for C6 on the partial-store fixture: the head `h` references
the absent object `x`. -/
theorem claim_missing_object_witness :
    "x" ∈ (build_commit_graph partialStore partialBranches).keys ∧
    storeLookup partialStore "x" = none ∧
    Acyclic (build_commit_graph partialStore partialBranches) ∧
    ((buildLoop partialStore (buildFuel partialStore partialBranches) ∅
        ((partialBranches.map Prod.snd).reverse) ⟨∅, freshNode⟩).isSome ∧
      ((build_commit_graph partialStore partialBranches).nodeOf "x").parents = [] ∧
      "x" ∈ topo_sort (build_commit_graph partialStore partialBranches) ["h"]) :=
  ⟨by decide, by decide, ⟨partialRank, by decide⟩,
    claim_missing_object partialStore partialBranches _ ["h"] "x" rfl (by decide) (by decide)
      ⟨partialRank, by decide⟩⟩

/-- Claim C7: the printed output does not depend on the enumeration order
of the (branch name, head commit) pairs: permuting the branch list leaves
the lines produced by `build_commit_graph`, `topo_sort` and
`ordered_print` unchanged. -/
theorem claim_output_order_independent (store : List (String × List String))
    (bs1 bs2 : List (String × String)) (hperm : bs1.Perm bs2) :
    ordered_print (build_commit_graph store bs1)
        (topo_sort (build_commit_graph store bs1) (branch_heads_of bs1))
        (head_to_branches bs1) =
      ordered_print (build_commit_graph store bs2)
        (topo_sort (build_commit_graph store bs2) (branch_heads_of bs2))
        (head_to_branches bs2) := by
  have hg : build_commit_graph store bs1 = build_commit_graph store bs2 :=
    build_eq_of_headsOf_eq store bs1 bs2 (by
      unfold headsOf
      ext a
      simp only [List.mem_toFinset]
      exact (hperm.map Prod.snd).mem_iff)
  rw [hg]
  have htopo : topo_sort (build_commit_graph store bs2) (branch_heads_of bs1) =
      topo_sort (build_commit_graph store bs2) (branch_heads_of bs2) := rfl
  rw [htopo]
  exact ordered_print_congr_h2b _ _ _ (head_to_branches_perm bs1 bs2 hperm) _

/-- Witness for C7: swapping the two branches of the two-root fixture
leaves the output unchanged. -/
theorem claim_output_order_independent_witness :
    rootsBranches.Perm [("y", "b"), ("x", "a")] ∧
    ordered_print (build_commit_graph rootsStore rootsBranches)
        (topo_sort (build_commit_graph rootsStore rootsBranches)
          (branch_heads_of rootsBranches))
        (head_to_branches rootsBranches) =
      ordered_print (build_commit_graph rootsStore [("y", "b"), ("x", "a")])
        (topo_sort (build_commit_graph rootsStore [("y", "b"), ("x", "a")])
          (branch_heads_of [("y", "b"), ("x", "a")]))
        (head_to_branches [("y", "b"), ("x", "a")]) :=
  ⟨by decide,
    claim_output_order_independent rootsStore rootsBranches [("y", "b"), ("x", "a")]
      (by decide)⟩

/-- Claim C8: in every graph `build_commit_graph` returns, all
identifiers in parent lists and children sets are keys of the graph;
consequently every commit `topo_sort` emits is a key whose parents are
keys, so the counter decrement never touches an identifier outside the
counter table (whose domain is the key set). -/
theorem claim_graph_closure (store : List (String × List String))
    (bs : List (String × String)) (hs : List String) :
    (∀ k ∈ (build_commit_graph store bs).keys,
      ∀ p ∈ ((build_commit_graph store bs).nodeOf k).parents,
        p ∈ (build_commit_graph store bs).keys) ∧
    (∀ k ∈ (build_commit_graph store bs).keys,
      ∀ c ∈ ((build_commit_graph store bs).nodeOf k).children,
        c ∈ (build_commit_graph store bs).keys) ∧
    (∀ c ∈ topo_sort (build_commit_graph store bs) hs,
      c ∈ (build_commit_graph store bs).keys ∧
      ∀ p ∈ ((build_commit_graph store bs).nodeOf c).parents,
        p ∈ (build_commit_graph store bs).keys) := by
  have hwf := build_wf store bs
  refine ⟨hwf.1, ?_, ?_⟩
  · intro k hk c hc
    rw [hwf.2 k hk] at hc
    exact (Finset.mem_filter.mp hc).1
  · obtain ⟨d', hinv⟩ := topo_sort_inv_final _ hwf hs
    intro c hc
    have hck := hinv.order_keys c hc
    exact ⟨hck, hwf.1 c hck⟩

/-- Claim C9: `topo_sort` never reads its `branch_heads` argument, so its
result is the same for any two argument lists. -/
theorem claim_branch_heads_ignored (g : CommitGraph) (h1 h2 : List String) :
    topo_sort g h1 = topo_sort g h2 := rfl

/-- Claim C10: the build loop, run with the budget `build_commit_graph`
supplies, reaches the empty stack on every finite object store — also on
stores whose parent links form a cycle, as in the two-commit cycle
checked in the second conjunct. -/
theorem claim_build_terminates :
    (∀ (store : List (String × List String)) (bs : List (String × String)),
      ∃ g', buildLoop store (buildFuel store bs) ∅ ((bs.map Prod.snd).reverse)
          ⟨∅, freshNode⟩ = some g' ∧ build_commit_graph store bs = g') ∧
    (buildLoop [("a", ["b"]), ("b", ["a"])]
      (buildFuel [("a", ["b"]), ("b", ["a"])] [("x", "a")]) ∅ ["a"]
      ⟨∅, freshNode⟩).isSome := by
  constructor
  · intro store bs
    obtain ⟨v', heq, _, _⟩ := build_final store bs
    exact ⟨build_commit_graph store bs, heq, rfl⟩
  · decide

end TopoOrderCommits
